import Mathlib

/-!
Verification of the transition-state (TS) graph classification and local
stereochemistry algebra of the automol graph modules (the files _04class.py
and _05ts.py). Bond keys are modelled as 2-element finite sets of atom keys,
TS graphs as bond lists tagged static / breaking / forming together with the
per-atom data the Graph Query Layer stores (implicit hydrogens, local stereo
priorities, stereo parities, dummy atoms). Collaborator queries that are not
part of the analysed code (tetrahedral atoms, ring detection, radical sites)
are modelled from the spec as an explicit interface record, GraphLib, that the
analysed functions consume. Functions whose Python originals can raise on
malformed input return Option, with none modelling the raised error.
-/

/-- Sorted (ascending) list of the elements of a finite set of naturals.
Models the deterministic iteration order we give to Python frozensets of
small integers. -/
def finList (s : Finset ℕ) : List ℕ :=
  Quot.liftOn s.1 (fun l => List.insertionSort (· ≤ ·) l)
    (fun _ _ h => List.eq_of_perm_of_sorted
      ((List.perm_insertionSort _ _).trans (h.trans (List.perm_insertionSort _ _).symm))
      (List.sorted_insertionSort _ _) (List.sorted_insertionSort _ _))

/-- Extraction of the unique element of a singleton set: models the Python
pattern
  (x,) = s
which raises (modelled by none) unless s has exactly one element. -/
def theOnly (s : Finset ℕ) : Option ℕ :=
  match finList s with
  | [a] => some a
  | _ => none

/-- Python dict assignment d[k] = v on an association list: an existing key
keeps its position and gets the new value, a new key is appended. -/
def dictInsert {K V : Type} [DecidableEq K] (k : K) (v : V) : List (K × V) → List (K × V)
  | [] => [(k, v)]
  | (k', v') :: t => if k' = k then (k, v) :: t else (k', v') :: dictInsert k v t

/-- Python dict lookup d[k] (first, hence unique, binding of k). -/
def dlookup {K V : Type} [DecidableEq K] (k : K) : List (K × V) → Option V
  | [] => none
  | (k', v') :: t => if k' = k then some v' else dlookup k t

/-- Comparison on sort keys: none models the missing-priority sentinel
minus infinity, which sorts before every value. -/
def obLE : Option ℤ → Option ℤ → Prop
  | none, _ => True
  | some _, none => False
  | some x, some y => x ≤ y

instance obLE.instDec : (a b : Option ℤ) → Decidable (obLE a b)
  | none, _ => isTrue trivial
  | some _, none => isFalse (fun h => h)
  | some x, some y => Int.decLe x y

/-- Stable ascending sort by a natural-number key: models the Python built-in
sorted with an integer key function. -/
def keySort {α : Type} (f : α → ℕ) (l : List α) : List α :=
  @List.insertionSort α (fun a b => f a ≤ f b) (fun a b => Nat.decLe (f a) (f b)) l

/-- Stable ascending sort of optional atom keys by optional priority value,
with missing values sorting first: models
  sorted(nkeys, key=dict_.sort_value_(pri_dct, missing_val=-numpy.inf)). -/
def prioritySort (pri : ℕ → Option ℤ) (l : List (Option ℕ)) : List (Option ℕ) :=
  @List.insertionSort (Option ℕ) (fun a b => obLE (a.bind pri) (b.bind pri))
    (fun a b => obLE.instDec _ _) l

/-- Position of the first occurrence of an element in a list (the length
when absent): models the Python list.index method, whose failure on an
absent element is handled separately at each use site. -/
def listIndex {α : Type} [DecidableEq α] (x : α) : List α → ℕ
  | [] => 0
  | a :: t => if a = x then 0 else listIndex x t + 1

/-- Swap two values, leaving everything else fixed. -/
def swapFun {α : Type} [DecidableEq α] (x y : α) (a : α) : α :=
  if a = x then y else if a = y then x else a

/-- Number of occurrences of an element in a list. -/
def cnt {α : Type} [DecidableEq α] (x : α) : List α → ℕ
  | [] => 0
  | a :: t => (if a = x then 1 else 0) + cnt x t

/-- Modelled from the spec (glossary): permutation parity is whether
reordering one sequence into another requires an even or odd number of
transpositions; total on arbitrary list pairs by answering false when the
second list is not a duplicate-free rearrangement of the first. Models
automol.util.is_even_permutation, whose source is not part of the analysed
files. The parity is computed as the parity of the number of order
inversions between the two sequences. -/
def posOf {α : Type} [DecidableEq α] (l1 l2 : List α) (i : ℕ) : ℕ :=
  match l1.get? i with
  | some x => listIndex x l2
  | none => 0

def invPairs {α : Type} [DecidableEq α] (l1 l2 : List α) : Finset (ℕ × ℕ) :=
  (Finset.range l1.length ×ˢ Finset.range l1.length).filter
    (fun p => p.1 < p.2 ∧ posOf l1 l2 p.2 < posOf l1 l2 p.1)

def is_even_permutation {α : Type} [DecidableEq α] (l1 l2 : List α) : Bool :=
  if l1.Nodup ∧ l1.Perm l2 then decide (Even (invPairs l1 l2).card) else false

/-- Modelled from the spec (section 4.3): reorder a list so that the given
items come first, in the given order, the remaining items keeping their
relative order. Models automol.util.move_items_to_front, whose source is not
part of the analysed files. -/
def move_items_to_front {α : Type} [DecidableEq α] (l : List α) (items : List α) : List α :=
  items ++ l.filter (fun x => decide (x ∉ items))

/-- Bond annotation of a TS graph: present in both reagents (static), only in
reactants (breaking) or only in products (forming). -/
inductive BondTag : Type
  | static : BondTag
  | breaking : BondTag
  | forming : BondTag
deriving DecidableEq, Repr

/-- Direction reversal of a bond annotation. -/
def BondTag.rev : BondTag → BondTag
  | BondTag.static => BondTag.static
  | BondTag.breaking => BondTag.forming
  | BondTag.forming => BondTag.breaking

/-- A molecular (TS) graph value: atom keys, tagged bond keys, and the
per-atom data served by the Graph Query Layer accessors (implicit hydrogen
counts, local stereo priorities, stored stereo parities, dummy atoms). -/
structure MolGraph : Type where
  atoms : List ℕ
  bonds : List (Finset ℕ × BondTag)
  nhyd : ℕ → ℕ
  pri : ℕ → Option ℤ
  atomPar : ℕ → Option Bool
  bondPar : Finset ℕ → Option Bool
  dummies : List ℕ

/-- Keys of the breaking bonds, in bond-list order. -/
def ts_breaking_bond_keys (g : MolGraph) : List (Finset ℕ) :=
  g.bonds.filterMap (fun p => if p.2 = BondTag.breaking then some p.1 else none)

/-- Keys of the forming bonds, in bond-list order. -/
def ts_forming_bond_keys (g : MolGraph) : List (Finset ℕ) :=
  g.bonds.filterMap (fun p => if p.2 = BondTag.forming then some p.1 else none)

/-- TS direction reversal: breaking and forming bonds swap roles. -/
def ts_reverse (g : MolGraph) : MolGraph :=
  MolGraph.mk g.atoms (g.bonds.map (fun p => (p.1, p.2.rev)))
    g.nhyd g.pri g.atomPar g.bondPar g.dummies

/-- Neighbor keys of an atom, over all bonds of the graph value. -/
def nbrsFinset (g : MolGraph) (k : ℕ) : Finset ℕ :=
  g.bonds.foldr (fun p s => if k ∈ p.1 then s ∪ p.1.erase k else s) ∅

/-- Neighbor-key list of an atom (Graph Query Layer accessor), ascending. -/
def atom_neighbor_atom_keys (g : MolGraph) (k : ℕ) : List ℕ :=
  finList (nbrsFinset g k)

/-- Dummy-atom removal (Graph Query Layer): drops dummy atoms and their
bonds. -/
def without_dummy_atoms (g : MolGraph) : MolGraph :=
  MolGraph.mk (g.atoms.filter (fun a => decide (a ∉ g.dummies)))
    (g.bonds.filter (fun p => g.dummies.all (fun d => decide (d ∉ p.1))))
    g.nhyd g.pri g.atomPar g.bondPar []

/-- Reactants-only view: forming bonds are dropped, stereo assignments are
cleared. -/
def ts_reactants_graph_without_stereo (g : MolGraph) : MolGraph :=
  MolGraph.mk g.atoms (g.bonds.filter (fun p => decide (p.2 ≠ BondTag.forming)))
    g.nhyd g.pri (fun _ => none) (fun _ => none) g.dummies

/-- Products-only view: breaking bonds are dropped, stereo assignments are
cleared. -/
def ts_products_graph_without_stereo (g : MolGraph) : MolGraph :=
  MolGraph.mk g.atoms (g.bonds.filter (fun p => decide (p.2 ≠ BondTag.breaking)))
    g.nhyd g.pri (fun _ => none) (fun _ => none) g.dummies

/-- Both reagent views, reactants first. -/
def ts_reagents_graphs_without_stereo (g : MolGraph) : List MolGraph :=
  [ts_reactants_graph_without_stereo g, ts_products_graph_without_stereo g]

/-- A graph value is in TS format when some bond is breaking or forming. -/
def is_ts_graph (g : MolGraph) : Bool :=
  g.bonds.any (fun p => decide (p.2 ≠ BondTag.static))

/-- Local stereo priority accessor (Graph Query Layer). -/
def local_stereo_priorities (g : MolGraph) : ℕ → Option ℤ :=
  g.pri

/-- Implicit hydrogen count accessor (Graph Query Layer). -/
def atom_implicit_hydrogens (g : MolGraph) : ℕ → ℕ :=
  g.nhyd

/-- Keys of bonds holding a stereo parity, in bond-list order. -/
def bond_stereo_keys (g : MolGraph) : List (Finset ℕ) :=
  g.bonds.filterMap (fun p => if (g.bondPar p.1).isSome then some p.1 else none)

/-- Modelled from the spec (sections 2 and 6): the Graph Query Layer
collaborator interface consumed by the analysed functions. The sources of
tetrahedral-atom detection, ring detection and radical-site detection are
not part of the analysed files, so the analysed functions are parametrised
over an arbitrary implementation of this interface. -/
structure GraphLib : Type where
  tetrahedral_atom_keys : MolGraph → Finset ℕ
  reacting_rings_bond_keys : MolGraph → List (List (Finset ℕ))
  forming_rings_atom_keys : MolGraph → List (Finset ℕ)
  rigid_planar_bond_keys : MolGraph → List (Finset ℕ)
  vinyl_radical_atom_bond_keys : MolGraph → List (ℕ × Finset ℕ)
  sigma_radical_atom_bond_keys : MolGraph → List (ℕ × Finset ℕ)

/-- One step of the atom-transfer loop body: for a (breaking, forming) bond
pair with a nonempty key intersection, unpack the transferring, donor and
acceptor atoms (failure of any unpack models the Python unpack error) and
record transferring atom to (donor, acceptor) in the dict. -/
def atomTransfersAux :
    List (Finset ℕ × Finset ℕ) → List (ℕ × (ℕ × ℕ)) → Option (List (ℕ × (ℕ × ℕ)))
  | [], acc => some acc
  | (b, f) :: rest, acc =>
    if (b ∩ f) = ∅ then atomTransfersAux rest acc
    else
      (theOnly (b ∩ f)).bind fun tra =>
      (theOnly (b \ f)).bind fun don =>
      (theOnly (f \ b)).bind fun acp =>
      atomTransfersAux rest (dictInsert tra (don, acp) acc)

/-- Dictionary describing atom transfers: keys are transferring atoms, values
are donors and acceptors, respectively; built from the product of the
breaking and forming bond key lists (automol.graph.base._04class.atom_transfers). -/
def atom_transfers (g : MolGraph) : Option (List (ℕ × (ℕ × ℕ))) :=
  atomTransfersAux ((ts_breaking_bond_keys g).product (ts_forming_bond_keys g)) []

/-- Substitution sites: the atom-transfer dict restricted to tetrahedral
atoms (automol.graph.base._04class.substitutions). -/
def substitutions (L : GraphLib) (g : MolGraph) : Option (List (ℕ × (ℕ × ℕ))) :=
  (atom_transfers g).map
    (fun m => m.filter (fun e => decide (e.1 ∈ L.tetrahedral_atom_keys g)))

/-- An elimination bond key is a ring key that intersects two breaking bonds
and is not a forming bond (inner predicate of
automol.graph.base._04class.eliminations). -/
def is_elimination_bkey (brks frms : List (Finset ℕ)) (bkey : Finset ℕ) : Bool :=
  brks.all (fun bk => decide ((bkey ∩ bk) ≠ ∅)) && decide (bkey ∉ frms)

/-- First common atom of two bond keys (next(iter(bkey1 and bkey2))). -/
def common_atom (bkey1 bkey2 : Finset ℕ) : ℕ :=
  (finList (bkey1 ∩ bkey2)).headD 0

/-- Per-ring loop of eliminations: require two breaking bonds in the ring,
find the first elimination bond, sort the breaking bonds by their common
atom with it, unpack the leaving atoms, assert at most one forming bond in
the ring (failure models the Python assert), and record the entry. -/
def eliminationsAux (brkPool frmPool : List (Finset ℕ)) :
    List (List (Finset ℕ)) → List (Finset ℕ × (ℕ × ℕ × Option (Finset ℕ))) →
    Option (List (Finset ℕ × (ℕ × ℕ × Option (Finset ℕ))))
  | [], acc => some acc
  | rng :: rest, acc =>
    let brks := rng.filter (fun bk => decide (bk ∈ brkPool))
    let frms := rng.filter (fun bk => decide (bk ∈ frmPool))
    if brks.length = 2 then
      match rng.find? (is_elimination_bkey brks frms) with
      | none => eliminationsAux brkPool frmPool rest acc
      | some bkey =>
        match keySort (common_atom bkey) brks with
        | [brk1, brk2] =>
          (theOnly (brk1 \ bkey)).bind fun lea1 =>
          (theOnly (brk2 \ bkey)).bind fun lea2 =>
          if frms.length ≤ 1 then
            eliminationsAux brkPool frmPool rest
              (dictInsert bkey (lea1, lea2, frms.head?) acc)
          else none
        | _ => none
      else eliminationsAux brkPool frmPool rest acc

/-- Dictionary describing elimination reaction sites, keyed by the bond
across which the elimination occurs, with the leaving atoms (sorted in
order of the elimination bond atoms) and the forming bond key if present
(automol.graph.base._04class.eliminations). -/
def eliminations (L : GraphLib) (g : MolGraph) :
    Option (List (Finset ℕ × (ℕ × ℕ × Option (Finset ℕ)))) :=
  eliminationsAux (ts_breaking_bond_keys g) (ts_forming_bond_keys g)
    (L.reacting_rings_bond_keys g) []

/-- Dictionary describing insertion reaction sites: eliminations applied to
the direction-reversed TS graph (automol.graph.base._04class.insertions). -/
def insertions (L : GraphLib) (g : MolGraph) :
    Option (List (Finset ℕ × (ℕ × ℕ × Option (Finset ℕ)))) :=
  eliminations L (ts_reverse g)

/-- The sorted neighbor entry list built by
atom_stereo_sorted_neighbor_keys before the apex handling: strip dummy
atoms, switch to the reactants view at Sn2 stereocenters, gather neighbor
keys plus one placeholder (none) per implicit hydrogen, and sort by
priority with missing priorities lowest. -/
def atomStereoEntries (L : GraphLib) (g : MolGraph) (key : ℕ)
    (priArg : Option (ℕ → Option ℤ)) : Option (List (Option ℕ)) :=
  let g1 := without_dummy_atoms g
  let pri := priArg.getD (local_stereo_priorities g1)
  (substitutions L g1).bind fun sdct =>
  let g2 := if (dlookup key sdct).isSome then ts_reactants_graph_without_stereo g1 else g1
  let nkeys : List (Option ℕ) :=
    (atom_neighbor_atom_keys g2 key).map some ++
      List.replicate (atom_implicit_hydrogens g1 key) none
  some (prioritySort pri nkeys)

/-- Keys for the neighbors of an atom that are relevant for atom
stereochemistry, sorted by priority; with self apex requested and fewer
than four entries, the atom key itself is prepended as apex, which asserts
exactly three entries (failure models the Python assert)
(automol.graph.base._04class.atom_stereo_sorted_neighbor_keys). -/
def atom_stereo_sorted_neighbor_keys (L : GraphLib) (g : MolGraph) (key : ℕ)
    (self_apex : Bool) (priArg : Option (ℕ → Option ℤ)) : Option (List (Option ℕ)) :=
  (atomStereoEntries L g key priArg).bind fun nkeys =>
  if self_apex = true ∧ nkeys.length < 4 then
    if nkeys.length = 3 then some (some key :: nkeys) else none
  else some nkeys

/-- Modelled from the spec (section 6): per-bond neighbor lookup — the
neighbors of each bond atom other than the bond partner. Models
automol.graph.base._00core.bond_neighbor_atom_keys, whose source is not part
of the analysed files. -/
def bond_neighbor_atom_keys (g : MolGraph) (key1 key2 : ℕ) : Finset ℕ × Finset ℕ :=
  ((nbrsFinset g key1).erase key2, (nbrsFinset g key2).erase key1)

/-- Modelled from the spec (section 4.2): bond-removal-by-order filter for
the sentinel fractional orders 0.1 and 0.9, which mark the forming and
breaking bond classes; removing them leaves the static bonds. Models
automol.graph.base._00core.without_bonds_by_orders applied to [0.1, 0.9]. -/
def without_bonds_by_orders (g : MolGraph) : MolGraph :=
  MolGraph.mk g.atoms (g.bonds.filter (fun p => decide (p.2 = BondTag.static)))
    g.nhyd g.pri g.atomPar g.bondPar g.dummies

/-- Keys for the neighbors of a bond that are relevant for bond
stereochemistry, for the first and second bond atom respectively: neighbor
sets are united over the reagent views in which neither bond atom is
tetrahedral, implicit-hydrogen placeholders are appended, a fallback on the
order-filtered graph replaces the result when either side exceeds two
neighbors, and each side is sorted by priority
(automol.graph.base._04class.bond_stereo_sorted_neighbor_keys). -/
def bond_stereo_sorted_neighbor_keys (L : GraphLib) (g : MolGraph) (key1 key2 : ℕ)
    (priArg : Option (ℕ → Option ℤ)) : List (Option ℕ) × List (Option ℕ) :=
  let g1 := without_dummy_atoms g
  let pri := priArg.getD (local_stereo_priorities g1)
  let gras := if is_ts_graph g1 then ts_reagents_graphs_without_stereo g1 else [g1]
  let ns := gras.foldl
    (fun s g_ =>
      if key1 ∉ L.tetrahedral_atom_keys g_ ∧ key2 ∉ L.tetrahedral_atom_keys g_ then
        (s.1 ∪ (bond_neighbor_atom_keys g_ key1 key2).1,
         s.2 ∪ (bond_neighbor_atom_keys g_ key1 key2).2)
      else s)
    (∅, ∅)
  let nkeys1 : List (Option ℕ) :=
    (finList ns.1).map some ++ List.replicate (atom_implicit_hydrogens g1 key1) none
  let nkeys2 : List (Option ℕ) :=
    (finList ns.2).map some ++ List.replicate (atom_implicit_hydrogens g1 key2) none
  if 2 < nkeys1.length ∨ 2 < nkeys2.length then
    let g2 := without_bonds_by_orders g1
    let nkeys1f : List (Option ℕ) :=
      (finList (bond_neighbor_atom_keys g2 key1 key2).1).map some ++
        List.replicate (atom_implicit_hydrogens g1 key1) none
    let nkeys2f : List (Option ℕ) :=
      (finList (bond_neighbor_atom_keys g2 key1 key2).2).map some ++
        List.replicate (atom_implicit_hydrogens g1 key2) none
    (prioritySort pri nkeys1f, prioritySort pri nkeys2f)
  else (prioritySort pri nkeys1, prioritySort pri nkeys2)

/-- Modelled from the spec (section 3): the substitution map accessor of the
core layer coincides with the substitutions classifier — the atom-transfer
map restricted to tetrahedral centers. Models
automol.graph.base._00core.substitution_atom_transfers, whose source is not
part of the analysed files. -/
def substitution_atom_transfers (L : GraphLib) (g : MolGraph) : Option (List (ℕ × (ℕ × ℕ))) :=
  substitutions L g

/-- Loop body of sn2_local_stereo_reversal_flips: for each substitution
transfer site, build the forward neighbor ordering with the donor swapped
for the acceptor (an absent donor models the Python list.index error), the
reverse-direction ordering from the reversed TS graph, and record whether
they are related by an even permutation. -/
def sn2Aux (L : GraphLib) (g : MolGraph) :
    List (ℕ × (ℕ × ℕ)) → List (ℕ × Bool) → Option (List (ℕ × Bool))
  | [], acc => some acc
  | (tra, (don, acp)) :: rest, acc =>
    (atom_stereo_sorted_neighbor_keys L g tra false none).bind fun nks0 =>
    if (some don) ∈ nks0 then
      let nks0s := nks0.set (listIndex (some don) nks0) (some acp)
      (atom_stereo_sorted_neighbor_keys L (ts_reverse g) tra false none).bind fun nks1 =>
      sn2Aux L g rest (dictInsert tra (is_even_permutation nks0s nks1) acc)
    else none

/-- For Sn2 reaction sites, which of them flip local stereo parity upon
reversing the TS direction
(automol.graph.base._05ts.sn2_local_stereo_reversal_flips). -/
def sn2_local_stereo_reversal_flips (L : GraphLib) (g : MolGraph) : Option (List (ℕ × Bool)) :=
  (substitution_atom_transfers L g).bind fun sdct => sn2Aux L g sdct []

/-- Ascending sort of atom keys by their stored priority value, where a
missing priority models the Python dict KeyError (none result): models
  sorted(nkeys_dct[key], key=loc_pri_dct.__getitem__). -/
def priKeySort (pri : ℕ → Option ℤ) (l : List ℕ) : Option (List ℕ) :=
  if l.all (fun k => (pri k).isSome) then
    some (@List.insertionSort ℕ (fun a b => (pri a).getD 0 ≤ (pri b).getD 0)
      (fun a b => Int.decLe _ _) l)
  else none

/-- Loop body of constrained_1_2_insertion_local_parities over the rigid,
planar candidate bonds: both bond atoms must be stereogenic, each end must
have a forming bond (unpacked to the incoming partner; absence models the
Python StopIteration), the four atoms must touch a forming ring, and then
the bond parity is computed from the two atom parities and the two
permutation parities that move the bond partner and the incoming partner to
the front of each priority-sorted neighbor list. -/
def constrainedAux (L : GraphLib) (g : MolGraph) :
    List (Finset ℕ) → List (Finset ℕ × Bool) → Option (List (Finset ℕ × Bool))
  | [], acc => some acc
  | bkey :: rest, acc =>
    if (finList bkey).all (fun k => (g.atomPar k).isSome) then
      match finList bkey with
      | [key1, key2] =>
        match (ts_forming_bond_keys g).find? (fun bk => decide (key1 ∈ bk)) with
        | none => none
        | some f1 =>
          (theOnly (f1 \ {key1})).bind fun key0 =>
          match (ts_forming_bond_keys g).find? (fun bk => decide (key2 ∈ bk)) with
          | none => none
          | some f2 =>
            (theOnly (f2 \ {key2})).bind fun key3 =>
            let keys : Finset ℕ := {key0, key1, key2, key3}
            if (L.forming_rings_atom_keys g).any (fun rkeys => decide ((keys ∩ rkeys) ≠ ∅)) then
              match g.atomPar key1, g.atomPar key2 with
              | some pa1, some pa2 =>
                (priKeySort (local_stereo_priorities g) (atom_neighbor_atom_keys g key1)).bind
                  fun nk1s =>
                (priKeySort (local_stereo_priorities g) (atom_neighbor_atom_keys g key2)).bind
                  fun nk2s =>
                let p1 := is_even_permutation nk1s (move_items_to_front nk1s [key2, key0])
                let p2 := is_even_permutation nk2s (move_items_to_front nk2s [key1, key3])
                let pb12 := !((!(pa1.xor p1)).xor (!(pa2.xor p2)))
                constrainedAux L g rest (dictInsert bkey pb12 acc)
              | _, _ => none
            else constrainedAux L g rest acc
      | _ => none
    else constrainedAux L g rest acc

/-- Local parities of the reactant bond of a constrained 1,2-insertion
(automol.graph.base._05ts.constrained_1_2_insertion_local_parities). -/
def constrained_1_2_insertion_local_parities (L : GraphLib) (g : MolGraph) :
    Option (List (Finset ℕ × Bool)) :=
  constrainedAux L g (L.rigid_planar_bond_keys (ts_reactants_graph_without_stereo g)) []

/-- Loop body of vinyl_addition_local_parities: for each vinyl radical
atom/bond pair whose bond carries a stereo parity, compare the highest
priority neighbor on the reactants view against the full TS view and record
the flipped parity when they differ (an empty TS-side list while the
reactants side is nonempty models the Python index error). -/
def vinylAux (L : GraphLib) (g gra : MolGraph) :
    List (ℕ × Finset ℕ) → List (Finset ℕ × Bool) → Option (List (Finset ℕ × Bool))
  | [], acc => some acc
  | (vin_akey, vin_bkey) :: rest, acc =>
    if vin_bkey ∈ bond_stereo_keys g then
      match g.bondPar vin_bkey with
      | none => none
      | some par =>
        (theOnly (vin_bkey \ {vin_akey})).bind fun vin_nkey =>
        let nkeys_ts :=
          (bond_stereo_sorted_neighbor_keys L g vin_akey vin_nkey
            (some (local_stereo_priorities g))).1
        let nkeys_r :=
          (bond_stereo_sorted_neighbor_keys L gra vin_akey vin_nkey
            (some (local_stereo_priorities g))).1
        if nkeys_r ≠ [] then
          match nkeys_ts.getLast? with
          | none => none
          | some tlast =>
            if nkeys_r.getLast? ≠ some tlast then
              vinylAux L g gra rest (dictInsert vin_bkey (!par) acc)
            else vinylAux L g gra rest acc
        else vinylAux L g gra rest acc
    else vinylAux L g gra rest acc

/-- Local parities of the reactant or product of a vinyl addition
(automol.graph.base._05ts.vinyl_addition_local_parities). -/
def vinyl_addition_local_parities (L : GraphLib) (g : MolGraph) :
    Option (List (Finset ℕ × Bool)) :=
  vinylAux L g (ts_reactants_graph_without_stereo g)
    (L.vinyl_radical_atom_bond_keys (ts_reactants_graph_without_stereo g)) []

/-- Modelled from the spec (glossary and section 4.4): the reacting atoms of
a TS graph are the atoms of its breaking and forming bonds. Models
automol.graph.base._00core.ts_reacting_atom_keys, whose source is not part
of the analysed files. -/
def ts_reacting_atom_keys (g : MolGraph) : Finset ℕ :=
  (ts_breaking_bond_keys g ++ ts_forming_bond_keys g).foldr (fun b s => b ∪ s) ∅

/-- Modelled from the spec (section 3): the transferring atoms accessor of
the core layer has the shape of the atom-transfer map. Models
automol.graph.base._00core.ts_transferring_atoms, whose source is not part
of the analysed files. -/
def ts_transferring_atoms (g : MolGraph) : Option (List (ℕ × (ℕ × ℕ))) :=
  atom_transfers g

/-- Reacting electron direction at one end of a forming bond: an x-axis
directed bond, an optional y-axis directed bond and a rotation angle given
as a rational multiple of pi (so 1 stands for the angle pi and 4 / 3 for
the angle 4 pi / 3, keeping the numeric constants of the source exact).
The input atom must be a reacting atom, else the call fails
(automol.graph.base._05ts.ts_reacting_electron_direction). -/
def ts_reacting_electron_direction (L : GraphLib) (g : MolGraph) (key : ℕ) :
    Option (Option (ℕ × ℕ) × Option (ℕ × ℕ) × Option ℚ) :=
  if key ∈ ts_reacting_atom_keys g then
    (ts_transferring_atoms g).bind fun tra_dct =>
    let rcts_gra := ts_reactants_graph_without_stereo g
    let vin_dct := L.vinyl_radical_atom_bond_keys rcts_gra
    let sig_dct := L.sigma_radical_atom_bond_keys rcts_gra
    match dlookup key tra_dct with
    | some dv => some (some (key, dv.1), none, some 1)
    | none =>
      match dlookup key vin_dct with
      | some vbond =>
        (theOnly (vbond \ {key})).bind fun opp_key =>
        let nkey := (finList ((nbrsFinset rcts_gra key) \ {key, opp_key})).head?
        some (some (key, opp_key), nkey.map (fun n => (key, n)), some (4 / 3))
      | none =>
        match dlookup key sig_dct with
        | some sbond =>
          (theOnly (sbond \ {key})).bind fun nkey =>
          some (some (key, nkey), none, some 1)
        | none => some (none, none, none)
  else none

/-- Specification property of a constrained 1,2-insertion bond entry, stated
from the claim: the bond key splits into atoms key1 and key2 carrying stored
local parities, each bond atom has a forming bond giving its incoming
partner, the neighbor lists sort by priority, and the recorded value equals
NOT((p_a1 XOR p_1) XOR (p_a2 XOR p_2)) where p_1 and p_2 are the
permutation parities moving the bond partner and the incoming partner to
the front of the priority-sorted neighbor lists. -/
def ConstrainedSpec (g : MolGraph) (bkey : Finset ℕ) (v : Bool) : Prop :=
  ∃ key1 key2 key0 key3 pa1 pa2 nk1s nk2s,
    finList bkey = [key1, key2] ∧
    g.atomPar key1 = some pa1 ∧ g.atomPar key2 = some pa2 ∧
    (∃ f1, (ts_forming_bond_keys g).find? (fun bk => decide (key1 ∈ bk)) = some f1 ∧
      theOnly (f1 \ {key1}) = some key0) ∧
    (∃ f2, (ts_forming_bond_keys g).find? (fun bk => decide (key2 ∈ bk)) = some f2 ∧
      theOnly (f2 \ {key2}) = some key3) ∧
    priKeySort (local_stereo_priorities g) (atom_neighbor_atom_keys g key1) = some nk1s ∧
    priKeySort (local_stereo_priorities g) (atom_neighbor_atom_keys g key2) = some nk2s ∧
    v = !((pa1.xor (is_even_permutation nk1s (move_items_to_front nk1s [key2, key0]))).xor
          (pa2.xor (is_even_permutation nk2s (move_items_to_front nk2s [key1, key3]))))

/-- The highest-priority neighbor of the vinyl radical atom differs between
the reactants-only view (gra) and the full TS view (g): the reactants-side
sorted neighbor list is nonempty and its last (highest-priority) element
differs from the last element of the TS-side list. -/
def VinylChanged (L : GraphLib) (g gra : MolGraph) (akey nkey : ℕ) : Prop :=
  (bond_stereo_sorted_neighbor_keys L gra akey nkey (some (local_stereo_priorities g))).1 ≠ [] ∧
  (bond_stereo_sorted_neighbor_keys L gra akey nkey (some (local_stereo_priorities g))).1.getLast? ≠
    (bond_stereo_sorted_neighbor_keys L g akey nkey (some (local_stereo_priorities g))).1.getLast?

/-- Specification property of a vinyl-addition parity entry, stated from the
claim: the bond belongs to a vinyl radical site, carries a stored stereo
parity, its highest-priority neighbor changed between the reactants view
and the TS view, and the recorded value is the negated stored parity. -/
def VinylSpec (L : GraphLib) (g gra : MolGraph) (vin0 : List (ℕ × Finset ℕ))
    (bkey : Finset ℕ) (v : Bool) : Prop :=
  ∃ akey nkey par,
    (akey, bkey) ∈ vin0 ∧ bkey ∈ bond_stereo_keys g ∧ g.bondPar bkey = some par ∧
    theOnly (bkey \ {akey}) = some nkey ∧ VinylChanged L g gra akey nkey ∧ v = (!par)

/-- Convenience constructor: a TS graph with the given tagged bonds, no
implicit hydrogens, no dummy atoms, no stored parities, and the local
priority of an atom key equal to the key itself. -/
def mkGraph (bonds : List (Finset ℕ × BondTag)) : MolGraph :=
  MolGraph.mk [] bonds (fun _ => 0) (fun k => some (k : ℤ)) (fun _ => none) (fun _ => none) []

/-- A Graph Query Layer implementation answering every query with nothing. -/
def trivLib : GraphLib :=
  GraphLib.mk (fun _ => ∅) (fun _ => []) (fun _ => []) (fun _ => []) (fun _ => []) (fun _ => [])

/-- TS graph with breaking bonds 1-2 and 2-4 and forming bond 2-3: two
breaking/forming pairs share the transferring atom 2. -/
def gC1 : MolGraph :=
  mkGraph [({1, 2}, BondTag.breaking), ({2, 4}, BondTag.breaking), ({2, 3}, BondTag.forming)]

/-- TS graph of the spec scenario: one breaking bond 1-2, one forming bond 2-3. -/
def gScn : MolGraph :=
  mkGraph [({1, 2}, BondTag.breaking), ({2, 3}, BondTag.forming)]

/-- TS graph of the elimination scenario: a 4-membered ring 1-2-3-4 with
breaking bonds 1-2 and 3-4 and no forming bond. -/
def gC3 : MolGraph :=
  mkGraph [({1, 2}, BondTag.breaking), ({2, 3}, BondTag.static),
    ({3, 4}, BondTag.breaking), ({1, 4}, BondTag.static)]

/-- Ring collaborator enumerating the scenario ring starting at bond 1-2. -/
def libC3 : GraphLib :=
  GraphLib.mk (fun _ => ∅)
    (fun _ => [[{1, 2}, {2, 3}, {3, 4}, {1, 4}]])
    (fun _ => []) (fun _ => []) (fun _ => []) (fun _ => [])

/-- Ring collaborator enumerating the same scenario ring starting at bond 1-4. -/
def libC3r : GraphLib :=
  GraphLib.mk (fun _ => ∅)
    (fun _ => [[{1, 4}, {1, 2}, {2, 3}, {3, 4}]])
    (fun _ => []) (fun _ => []) (fun _ => []) (fun _ => [])

/-- TS graph with a 5-membered reacting ring 1-2-3-4-5 holding two breaking
bonds (1-2, 3-4), a valid elimination bond (2-3) and two forming bonds
(4-5, 5-1). -/
def gC9 : MolGraph :=
  mkGraph [({1, 2}, BondTag.breaking), ({2, 3}, BondTag.static),
    ({3, 4}, BondTag.breaking), ({4, 5}, BondTag.forming), ({5, 1}, BondTag.forming)]

/-- Ring collaborator for the 5-membered ring of gC9. -/
def libC9 : GraphLib :=
  GraphLib.mk (fun _ => ∅)
    (fun _ => [[{1, 2}, {2, 3}, {3, 4}, {4, 5}, {5, 1}]])
    (fun _ => []) (fun _ => []) (fun _ => []) (fun _ => [])

/-- Plain graph in which atom 0 has four neighbors. -/
def gC4 : MolGraph :=
  mkGraph [({0, 1}, BondTag.static), ({0, 2}, BondTag.static),
    ({0, 3}, BondTag.static), ({0, 4}, BondTag.static)]

/-- Plain graph in which atom 0 has three neighbors. -/
def gC4w : MolGraph :=
  mkGraph [({0, 1}, BondTag.static), ({0, 2}, BondTag.static), ({0, 3}, BondTag.static)]

/-- Constrained 1,2-insertion TS graph: static rigid bond 1-2 with both atom
parities stored, forming bonds 1-3 and 2-6. -/
def gC5 : MolGraph :=
  MolGraph.mk [] [({1, 2}, BondTag.static), ({1, 3}, BondTag.forming), ({2, 6}, BondTag.forming)]
    (fun _ => 0) (fun k => some (k : ℤ))
    (fun k => if k = 1 ∨ k = 2 then some true else none) (fun _ => none) []

/-- Collaborator for gC5: bond 1-2 is rigid planar and the four site atoms
form a forming ring. -/
def libC5 : GraphLib :=
  GraphLib.mk (fun _ => ∅) (fun _ => []) (fun _ => [{1, 2, 3, 6}])
    (fun _ => [{1, 2}]) (fun _ => []) (fun _ => [])

/-- Sn2 TS graph: transferring atom 2 with donor 1 (breaking bond), acceptor
3 (forming bond) and a static neighbor 5. -/
def gC7 : MolGraph :=
  mkGraph [({1, 2}, BondTag.breaking), ({2, 3}, BondTag.forming), ({2, 5}, BondTag.static)]

/-- Collaborator for gC7: atom 2 is tetrahedral in every graph view. -/
def libC7 : GraphLib :=
  GraphLib.mk (fun _ => {2}) (fun _ => []) (fun _ => []) (fun _ => []) (fun _ => []) (fun _ => [])

/-- Vinyl addition TS graph: stereo bond 1-2, static neighbor 4 of atom 1,
forming bond 1-6 entering at the vinyl radical atom 1. -/
def gC10 : MolGraph :=
  MolGraph.mk [] [({1, 2}, BondTag.static), ({1, 4}, BondTag.static), ({1, 6}, BondTag.forming)]
    (fun _ => 0) (fun k => some (k : ℤ)) (fun _ => none)
    (fun b => if b = ({1, 2} : Finset ℕ) then some true else none) []

/-- Collaborator for gC10: atom 1 is a vinyl radical atom on vinyl bond 1-2. -/
def libC10 : GraphLib :=
  GraphLib.mk (fun _ => ∅) (fun _ => []) (fun _ => []) (fun _ => [])
    (fun _ => [(1, {1, 2})]) (fun _ => [])

example : atom_transfers gC1 = some [(2, (4, 3))] := by decide
example : atom_transfers gScn = some [(2, (1, 3))] := by decide
example : eliminations libC3 gC3 = some [({2, 3}, (1, 4, none))] := by decide
example : eliminations libC3r gC3 = some [({1, 4}, (2, 3, none))] := by decide
example : eliminations libC9 gC9 = none := by decide
example : atom_stereo_sorted_neighbor_keys trivLib gC4 0 true none =
    some [some 1, some 2, some 3, some 4] := by decide
example : atom_stereo_sorted_neighbor_keys trivLib gC4w 0 true none =
    some [some 0, some 1, some 2, some 3] := by decide
example : constrained_1_2_insertion_local_parities libC5 gC5 = some [({1, 2}, true)] := by decide
example : sn2_local_stereo_reversal_flips libC7 gC7 = some [(2, true)] := by decide
example : sn2_local_stereo_reversal_flips libC7 (ts_reverse gC7) = some [(2, true)] := by decide
example : vinyl_addition_local_parities libC10 gC10 = some [({1, 2}, false)] := by decide
example : ts_reacting_electron_direction trivLib gScn 7 = none := by decide
example : ts_reacting_electron_direction trivLib gScn 2 =
    some (some (2, 1), none, some 1) := by decide

lemma finList_coe (s : Finset ℕ) : (finList s : Multiset ℕ) = s.1 := by
  rcases s with ⟨m, hm⟩
  induction m using Quotient.inductionOn with
  | h l =>
    show ((List.insertionSort (· ≤ ·) l : List ℕ) : Multiset ℕ) = (l : Multiset ℕ)
    exact Multiset.coe_eq_coe.mpr (List.perm_insertionSort _ _)

lemma mem_finList {s : Finset ℕ} {a : ℕ} : a ∈ finList s ↔ a ∈ s := by
  rw [← Multiset.mem_coe, finList_coe]
  exact Iff.rfl

lemma length_finList (s : Finset ℕ) : (finList s).length = s.card := by
  have h := finList_coe s
  have := congrArg Multiset.card h
  simpa using this

lemma nodup_finList (s : Finset ℕ) : (finList s).Nodup := by
  have h : Multiset.Nodup (finList s : Multiset ℕ) := by
    rw [finList_coe]; exact s.2
  exact h

lemma finList_singleton (x : ℕ) : finList {x} = [x] := by
  have h : ((finList {x} : List ℕ) : Multiset ℕ) = ({x} : Finset ℕ).1 := finList_coe {x}
  have h2 : (finList {x}).Perm [x] := by
    rw [← Multiset.coe_eq_coe]
    exact h
  exact List.perm_singleton.mp h2

lemma theOnly_eq_some {s : Finset ℕ} {x : ℕ} : theOnly s = some x ↔ s = {x} := by
  constructor
  · intro h
    unfold theOnly at h
    rcases hl : finList s with _ | ⟨a, _ | ⟨b, t⟩⟩
    · rw [hl] at h; exact absurd h (by simp)
    · rw [hl] at h
      simp only [Option.some.injEq] at h
      subst h
      apply Finset.ext
      intro b
      simp only [Finset.mem_singleton]
      rw [← mem_finList, hl]
      simp
    · rw [hl] at h; exact absurd h (by simp)
  · intro h
    subst h
    unfold theOnly
    rw [finList_singleton]

lemma mem_dictInsert {K V : Type} [DecidableEq K] {k : K} {v : V} {m : List (K × V)}
    {e : K × V} (h : e ∈ dictInsert k v m) : e = (k, v) ∨ e ∈ m := by
  induction m with
  | nil => simpa [dictInsert] using h
  | cons hd t ih =>
    rcases hd with ⟨k', v'⟩
    by_cases hk : k' = k
    · rw [dictInsert, if_pos hk] at h
      rcases List.mem_cons.mp h with h1 | h1
      · exact Or.inl h1
      · exact Or.inr (List.mem_cons_of_mem _ h1)
    · rw [dictInsert, if_neg hk] at h
      rcases List.mem_cons.mp h with h1 | h1
      · exact Or.inr (List.mem_cons.mpr (Or.inl h1))
      · rcases ih h1 with h2 | h2
        · exact Or.inl h2
        · exact Or.inr (List.mem_cons_of_mem _ h2)

lemma dlookup_dictInsert_self {K V : Type} [DecidableEq K] (k : K) (v : V)
    (m : List (K × V)) : dlookup k (dictInsert k v m) = some v := by
  induction m with
  | nil => simp [dictInsert, dlookup]
  | cons hd t ih =>
    rcases hd with ⟨k', v'⟩
    by_cases hk : k' = k
    · rw [dictInsert, if_pos hk, dlookup, if_pos rfl]
    · rw [dictInsert, if_neg hk, dlookup, if_neg hk]
      exact ih

lemma dlookup_dictInsert_ne {K V : Type} [DecidableEq K] {k k' : K} (v : V)
    (m : List (K × V)) (h : k' ≠ k) : dlookup k (dictInsert k' v m) = dlookup k m := by
  induction m with
  | nil => simp [dictInsert, dlookup, h]
  | cons hd t ih =>
    rcases hd with ⟨k0, v0⟩
    by_cases hk : k0 = k'
    · subst hk
      rw [dictInsert, if_pos rfl, dlookup, dlookup, if_neg h, if_neg h]
    · rw [dictInsert, if_neg hk]
      by_cases hk2 : k0 = k
      · rw [dlookup, if_pos hk2, dlookup, if_pos hk2]
      · rw [dlookup, if_neg hk2, dlookup, if_neg hk2]
        exact ih

lemma dlookup_mem {K V : Type} [DecidableEq K] {k : K} {v : V} {m : List (K × V)}
    (h : dlookup k m = some v) : (k, v) ∈ m := by
  induction m with
  | nil => exact absurd h (by simp [dlookup])
  | cons hd t ih =>
    rcases hd with ⟨k', v'⟩
    by_cases hk : k' = k
    · rw [dlookup, if_pos hk] at h
      subst hk
      simp only [Option.some.injEq] at h
      subst h
      exact List.mem_cons_self _ _
    · rw [dlookup, if_neg hk] at h
      exact List.mem_cons_of_mem _ (ih h)

lemma mem_keys_of_dlookup {K V : Type} [DecidableEq K] {k : K} {v : V} {m : List (K × V)}
    (h : dlookup k m = some v) : k ∈ m.map Prod.fst := by
  have := dlookup_mem h
  exact List.mem_map.mpr ⟨(k, v), this, rfl⟩

/-- C2: for every TS graph, insertions equals eliminations applied to the
direction-reversed TS graph, as the spec states (insertion is defined as
the formal reverse of elimination). -/
theorem C2_insertions_are_reversed_eliminations (L : GraphLib) (g : MolGraph) :
    insertions L g = eliminations L (ts_reverse g) := rfl

/-- Reversal of the bond tags is an involution. -/
lemma BondTag.rev_rev (t : BondTag) : t.rev.rev = t := by
  cases t <;> rfl

/-- TS direction reversal is an involution (supporting fact for the spec
sentence stating that reversal is an involution). -/
lemma ts_reverse_ts_reverse (g : MolGraph) : ts_reverse (ts_reverse g) = g := by
  rcases g with ⟨atoms, bonds, nhyd, pri, ap, bp, dum⟩
  unfold ts_reverse
  simp only [MolGraph.mk.injEq, List.map_map, and_true, true_and]
  have : ((fun p : Finset ℕ × BondTag => (p.1, p.2.rev)) ∘
      fun p : Finset ℕ × BondTag => (p.1, p.2.rev)) = id := by
    funext p
    simp [BondTag.rev_rev]
  rw [this, List.map_id]

/-- C8: calling the reacting-electron direction resolver on an atom key that
is not a reacting atom of the TS graph fails with the malformed-input error
(modelled by the none result) and never returns a value. -/
theorem C8_electron_direction_nonreacting_fatal (L : GraphLib) (g : MolGraph) (key : ℕ)
    (h : key ∉ ts_reacting_atom_keys g) :
    ts_reacting_electron_direction L g key = none := by
  unfold ts_reacting_electron_direction
  rw [if_neg h]

/-- C8 witness: atom 7 is not a reacting atom of the scenario graph and the
resolver fails on it. -/
theorem C8_witness :
    (7 ∉ ts_reacting_atom_keys gScn) ∧
    ts_reacting_electron_direction trivLib gScn 7 = none :=
  ⟨by decide, C8_electron_direction_nonreacting_fatal trivLib gScn 7 (by decide)⟩

/-- C3 counterexample: in the spec scenario (4-ring 1-2-3-4, breaking bonds
1-2 and 3-4, no forming bond) the bond 1-4 is NOT the unique ring bond
touching both breaking bonds — bond 2-3 qualifies as well — and with the
ring enumerated from bond 1-2 the code returns the entry keyed by 2-3, not
the claimed result keyed by 1-4. -/
theorem C3_counterexample :
    is_elimination_bkey [{1, 2}, {3, 4}] [] {2, 3} = true ∧
    is_elimination_bkey [{1, 2}, {3, 4}] [] {1, 4} = true ∧
    eliminations libC3 gC3 = some [({2, 3}, (1, 4, none))] ∧
    eliminations libC3 gC3 ≠ some [({1, 4}, (2, 3, none))] :=
  ⟨by decide, by decide, by decide, by decide⟩

/-- C3 (amended): in the scenario both transannular ring bonds qualify as
elimination bond; the code keys its single entry by whichever qualifying
bond the ring enumeration yields first, and when bond 1-4 comes first the
result is exactly the claimed one, with leaving atoms (2, 3) ordered by the
adjacent elimination-bond atoms and no forming bond attached. -/
theorem C3_amended_first_candidate_wins :
    eliminations libC3r gC3 = some [({1, 4}, (2, 3, none))] := by decide

/-- C4 counterexample: with self apex requested and an entry list of four
neighbors, the call is not fatal — the apex request is silently ignored and
the plain sorted 4-tuple is returned. -/
theorem C4_counterexample :
    (atomStereoEntries trivLib gC4 0 none).map List.length = some 4 ∧
    atom_stereo_sorted_neighbor_keys trivLib gC4 0 true none =
      some [some 1, some 2, some 3, some 4] := by decide

/-- C4 (amended): with self apex requested, an entry list of exactly three
entries yields the 4-tuple headed by the queried atom key followed by the
priority-sorted entries; fewer than three entries is fatal; four or more
entries return the sorted entries unchanged (the apex request is ignored
rather than fatal). -/
theorem C4_amended_self_apex_cases (L : GraphLib) (g : MolGraph) (key : ℕ)
    (priArg : Option (ℕ → Option ℤ)) (nkeys : List (Option ℕ))
    (h : atomStereoEntries L g key priArg = some nkeys) :
    (nkeys.length = 3 →
      atom_stereo_sorted_neighbor_keys L g key true priArg = some (some key :: nkeys)) ∧
    (nkeys.length < 3 →
      atom_stereo_sorted_neighbor_keys L g key true priArg = none) ∧
    (4 ≤ nkeys.length →
      atom_stereo_sorted_neighbor_keys L g key true priArg = some nkeys) := by
  unfold atom_stereo_sorted_neighbor_keys
  rw [h]
  have hb : ∀ f : List (Option ℕ) → Option (List (Option ℕ)),
      (some nkeys).bind f = f nkeys := fun _ => rfl
  rw [hb]
  refine ⟨fun hl => ?_, fun hl => ?_, fun hl => ?_⟩
  · rw [if_pos ⟨rfl, by omega⟩, if_pos hl]
  · rw [if_pos ⟨rfl, by omega⟩, if_neg (by omega)]
  · rw [if_neg]
    intro hc
    omega

/-- C4 witness: atom 0 of the three-neighbor graph has exactly three entries
and the self-apex call returns the 4-tuple headed by its own key. -/
theorem C4_witness :
    atomStereoEntries trivLib gC4w 0 none = some [some 1, some 2, some 3] ∧
    atom_stereo_sorted_neighbor_keys trivLib gC4w 0 true none =
      some [some 0, some 1, some 2, some 3] :=
  ⟨by decide,
    (C4_amended_self_apex_cases trivLib gC4w 0 none [some 1, some 2, some 3]
      (by decide)).1 (by decide)⟩

lemma keySort_length {α : Type} (f : α → ℕ) (l : List α) : (keySort f l).length = l.length :=
  (List.perm_insertionSort _ l).length_eq

lemma eliminationsAux_none_of_bad (brkPool frmPool : List (Finset ℕ))
    (rng : List (Finset ℕ))
    (hbrk : (rng.filter (fun bk => decide (bk ∈ brkPool))).length = 2)
    (helim : (rng.find? (is_elimination_bkey
      (rng.filter (fun bk => decide (bk ∈ brkPool)))
      (rng.filter (fun bk => decide (bk ∈ frmPool))))).isSome = true)
    (hfrm : 2 ≤ (rng.filter (fun bk => decide (bk ∈ frmPool))).length) :
    ∀ (rngs : List (List (Finset ℕ))), rng ∈ rngs →
    ∀ acc, eliminationsAux brkPool frmPool rngs acc = none := by
  intro rngs
  induction rngs with
  | nil => intro h; exact absurd h (List.not_mem_nil _)
  | cons r rest ih =>
    intro hmem acc
    rcases List.mem_cons.mp hmem with heq | hmem2
    · subst heq
      simp only [eliminationsAux]
      rw [if_pos hbrk]
      split
      · next hnone =>
        rw [hnone] at helim
        exact absurd helim (by simp)
      · next bkey hfind =>
        have hlen : (keySort (common_atom bkey)
            (rng.filter (fun bk => decide (bk ∈ brkPool)))).length = 2 := by
          rw [keySort_length]; exact hbrk
        split
        · next b1 b2 hks =>
          rcases h1 : theOnly (b1 \ bkey) with _ | lea1
          · rfl
          · simp only [Option.some_bind]
            rcases h2 : theOnly (b2 \ bkey) with _ | lea2
            · rfl
            · simp only [Option.some_bind]
              rw [if_neg (by omega)]
        · next => rfl
    · simp only [eliminationsAux]
      split
      · split
        · exact ih hmem2 acc
        · split
          · rcases theOnly _ with _ | lea1
            · rfl
            · rcases theOnly _ with _ | lea2
              · rfl
              · show (if _ then _ else none) = none
                split
                · exact ih hmem2 _
                · rfl
          · rfl
      · exact ih hmem2 acc

/-- C9: when some reacting ring holds exactly two breaking bonds and a valid
elimination bond but more than one forming bond, eliminations fails with the
unsupported-topology assertion (modelled by the none result) instead of
returning an entry for that ring. -/
theorem C9_multi_forming_bond_ring_fatal (L : GraphLib) (g : MolGraph)
    (rng : List (Finset ℕ))
    (hr : rng ∈ L.reacting_rings_bond_keys g)
    (hbrk : (rng.filter (fun bk => decide (bk ∈ ts_breaking_bond_keys g))).length = 2)
    (helim : (rng.find? (is_elimination_bkey
      (rng.filter (fun bk => decide (bk ∈ ts_breaking_bond_keys g)))
      (rng.filter (fun bk => decide (bk ∈ ts_forming_bond_keys g))))).isSome = true)
    (hfrm : 2 ≤ (rng.filter (fun bk => decide (bk ∈ ts_forming_bond_keys g))).length) :
    eliminations L g = none := by
  unfold eliminations
  exact eliminationsAux_none_of_bad _ _ rng hbrk helim hfrm _ hr []

/-- C9 witness: the 5-ring TS graph with two breaking bonds, elimination
bond 2-3 and two forming bonds makes eliminations fail. -/
theorem C9_witness : eliminations libC9 gC9 = none :=
  C9_multi_forming_bond_ring_fatal libC9 gC9
    [{1, 2}, {2, 3}, {3, 4}, {4, 5}, {5, 1}]
    (by decide) (by decide) (by decide) (by decide)

lemma singleton_mem_of_eq {s : Finset ℕ} {x : ℕ} (h : s = {x}) : x ∈ s := by
  rw [h]; exact Finset.mem_singleton_self x

lemma atomTransfersAux_lookup (k d a : ℕ) (b f : Finset ℕ)
    (hbf : b ∩ f = {k}) (hd : b \ f = {d}) (ha : f \ b = {a}) :
    ∀ (ps : List (Finset ℕ × Finset ℕ)) (acc m : List (ℕ × (ℕ × ℕ))),
    (∀ p ∈ ps, k ∈ p.1 ∩ p.2 → p = (b, f)) →
    ((b, f) ∈ ps ∨ dlookup k acc = some (d, a)) →
    atomTransfersAux ps acc = some m →
    dlookup k m = some (d, a) := by
  intro ps
  induction ps with
  | nil =>
    intro acc m _ hstart haux
    rcases hstart with h | h
    · exact absurd h (List.not_mem_nil _)
    · simp only [atomTransfersAux, Option.some.injEq] at haux
      rw [← haux]
      exact h
  | cons p rest ih =>
    intro acc m huniq hstart haux
    rcases p with ⟨b2, f2⟩
    simp only [atomTransfersAux] at haux
    by_cases hemp : (b2 ∩ f2) = ∅
    · rw [if_pos hemp] at haux
      have hne : (b, f) ≠ (b2, f2) := by
        intro h
        have hb2 : b = b2 := congrArg Prod.fst h
        have hf2 : f = f2 := congrArg Prod.snd h
        rw [← hb2, ← hf2, hbf] at hemp
        exact Finset.singleton_ne_empty k hemp
      refine ih acc m (fun p hp hk => huniq p (List.mem_cons_of_mem _ hp) hk) ?_ haux
      rcases hstart with h | h
      · rcases List.mem_cons.mp h with h1 | h1
        · exact absurd h1.symm (fun h2 => hne h2.symm)
        · exact Or.inl h1
      · exact Or.inr h
    · rw [if_neg hemp] at haux
      rcases h1 : theOnly (b2 ∩ f2) with _ | t
      · rw [h1] at haux; exact absurd haux (by simp)
      · rw [h1] at haux
        rcases h2 : theOnly (b2 \ f2) with _ | d2
        · rw [h2] at haux; exact absurd haux (by simp)
        · rw [h2] at haux
          rcases h3 : theOnly (f2 \ b2) with _ | a2
          · rw [h3] at haux; exact absurd haux (by simp)
          · rw [h3] at haux
            simp only [Option.some_bind] at haux
            by_cases ht : t = k
            · subst ht
              have hmem : t ∈ b2 ∩ f2 := singleton_mem_of_eq (theOnly_eq_some.mp h1)
              have heq : (b2, f2) = (b, f) := huniq (b2, f2) (List.mem_cons_self _ _) hmem
              have hb2 : b2 = b := congrArg Prod.fst heq
              have hf2 : f2 = f := congrArg Prod.snd heq
              subst hb2; subst hf2
              have hdd : d2 = d := by
                have := theOnly_eq_some.mp h2
                rw [hd] at this
                exact (Finset.singleton_injective this).symm
              have haa : a2 = a := by
                have := theOnly_eq_some.mp h3
                rw [ha] at this
                exact (Finset.singleton_injective this).symm
              rw [hdd, haa] at haux
              refine ih _ m (fun p hp hk => huniq p (List.mem_cons_of_mem _ hp) hk)
                (Or.inr ?_) haux
              exact dlookup_dictInsert_self t (d, a) acc
            · refine ih _ m (fun p hp hk => huniq p (List.mem_cons_of_mem _ hp) ?_) ?_ haux
              · exact hk
              · rcases hstart with h | h
                · rcases List.mem_cons.mp h with h4 | h4
                  · exfalso
                    have hb2 : b2 = b := (congrArg Prod.fst h4).symm
                    have hf2 : f2 = f := (congrArg Prod.snd h4).symm
                    rw [hb2, hf2, hbf] at h1
                    have hkt : ({k} : Finset ℕ) = {t} := theOnly_eq_some.mp h1
                    exact ht (Finset.singleton_injective hkt).symm
                  · exact Or.inl h4
                · exact Or.inr (by rw [dlookup_dictInsert_ne _ _ ht]; exact h)

/-- C1 counterexample: the TS graph with breaking bonds 1-2 and 2-4 and
forming bond 2-3 has the breaking/forming pair (1-2, 2-3) with intersection
exactly atom 2, donor 1 and acceptor 3, yet atom_transfers does not map 2
to (1, 3): the later pair (2-4, 2-3) overwrites the entry with (4, 3). -/
theorem C1_counterexample :
    ({1, 2} : Finset ℕ) ∈ ts_breaking_bond_keys gC1 ∧
    ({2, 3} : Finset ℕ) ∈ ts_forming_bond_keys gC1 ∧
    ({1, 2} : Finset ℕ) ∩ {2, 3} = {2} ∧
    ({1, 2} : Finset ℕ) \ {2, 3} = {1} ∧
    ({2, 3} : Finset ℕ) \ {1, 2} = {3} ∧
    atom_transfers gC1 = some [(2, (4, 3))] ∧
    ¬ ((atom_transfers gC1).bind (dlookup 2) = some (1, 3)) :=
  ⟨by decide, by decide, by decide, by decide, by decide, by decide, by decide⟩

/-- C1 (amended): for every breaking/forming bond pair whose key sets
intersect in exactly the atom k, IF that pair is the only
breaking/forming pair whose intersection contains k, then whenever
atom_transfers succeeds it maps k to (donor, acceptor) with donor the other
atom of the breaking bond and acceptor the other atom of the forming bond;
without the uniqueness condition a later pair sharing k overwrites the
entry. The scenario with one breaking bond 1-2 and one forming bond 2-3
yields the map sending 2 to (1, 3). -/
theorem C1_amended_unique_pair_transfer (g : MolGraph) (b f : Finset ℕ) (k d a : ℕ)
    (hb : b ∈ ts_breaking_bond_keys g) (hf : f ∈ ts_forming_bond_keys g)
    (hbf : b ∩ f = {k}) (hd : b \ f = {d}) (ha : f \ b = {a})
    (huniq : ∀ p ∈ (ts_breaking_bond_keys g).product (ts_forming_bond_keys g),
      k ∈ p.1 ∩ p.2 → p = (b, f))
    (m : List (ℕ × (ℕ × ℕ))) (hm : atom_transfers g = some m) :
    dlookup k m = some (d, a) := by
  unfold atom_transfers at hm
  refine atomTransfersAux_lookup k d a b f hbf hd ha _ [] m huniq ?_ hm
  exact Or.inl (List.pair_mem_product.mpr ⟨hb, hf⟩)

/-- C1 witness: in the scenario graph (breaking bond 1-2, forming bond 2-3)
the amended statement instantiates to the map sending 2 to (1, 3). -/
theorem C1_witness :
    ∃ m, atom_transfers gScn = some m ∧ dlookup 2 m = some (1, 3) :=
  ⟨[(2, (1, 3))], by decide,
    C1_amended_unique_pair_transfer gScn {1, 2} {2, 3} 2 1 3
      (by decide) (by decide) (by decide) (by decide) (by decide)
      (by decide) [(2, (1, 3))] (by decide)⟩

lemma atomTransfersAux_entries :
    ∀ (ps : List (Finset ℕ × Finset ℕ)) (acc m : List (ℕ × (ℕ × ℕ))),
    (∀ e ∈ acc, e.2.1 ≠ e.1 ∧ e.2.2 ≠ e.1 ∧ e.2.1 ≠ e.2.2) →
    atomTransfersAux ps acc = some m →
    ∀ e ∈ m, e.2.1 ≠ e.1 ∧ e.2.2 ≠ e.1 ∧ e.2.1 ≠ e.2.2 := by
  intro ps
  induction ps with
  | nil =>
    intro acc m hacc haux
    simp only [atomTransfersAux, Option.some.injEq] at haux
    rw [← haux]
    exact hacc
  | cons p rest ih =>
    intro acc m hacc haux
    rcases p with ⟨b, f⟩
    simp only [atomTransfersAux] at haux
    by_cases hemp : (b ∩ f) = ∅
    · rw [if_pos hemp] at haux
      exact ih acc m hacc haux
    · rw [if_neg hemp] at haux
      rcases h1 : theOnly (b ∩ f) with _ | t
      · rw [h1] at haux; exact absurd haux (by simp)
      · rw [h1] at haux
        rcases h2 : theOnly (b \ f) with _ | d
        · rw [h2] at haux; exact absurd haux (by simp)
        · rw [h2] at haux
          rcases h3 : theOnly (f \ b) with _ | a
          · rw [h3] at haux; exact absurd haux (by simp)
          · rw [h3] at haux
            simp only [Option.some_bind] at haux
            refine ih _ m ?_ haux
            intro e he
            rcases mem_dictInsert he with he1 | he1
            · subst he1
              have hti : t ∈ b ∩ f := singleton_mem_of_eq (theOnly_eq_some.mp h1)
              have hdi : d ∈ b \ f := singleton_mem_of_eq (theOnly_eq_some.mp h2)
              have hai : a ∈ f \ b := singleton_mem_of_eq (theOnly_eq_some.mp h3)
              have htb : t ∈ b := (Finset.mem_inter.mp hti).1
              have htf : t ∈ f := (Finset.mem_inter.mp hti).2
              have hdb : d ∈ b := (Finset.mem_sdiff.mp hdi).1
              have hdf : d ∉ f := (Finset.mem_sdiff.mp hdi).2
              have haf : a ∈ f := (Finset.mem_sdiff.mp hai).1
              have hab : a ∉ b := (Finset.mem_sdiff.mp hai).2
              refine ⟨fun h => ?_, fun h => ?_, fun h => ?_⟩
              · have h' : d = t := h
                rw [h'] at hdf
                exact hdf htf
              · have h' : a = t := h
                rw [h'] at hab
                exact hab htb
              · have h' : d = a := h
                rw [h'] at hdb
                exact hab hdb
            · exact hacc e he1

/-- C6: in a TS graph whose breaking and forming bond key sets are disjoint
2-element sets, every atom-transfer entry sending k to (donor, acceptor)
satisfies donor distinct from k, acceptor distinct from k, and donor
distinct from acceptor. -/
theorem C6_transfer_entries_distinct (g : MolGraph) (m : List (ℕ × (ℕ × ℕ))) (k d a : ℕ)
    (hcard_b : ∀ b ∈ ts_breaking_bond_keys g, b.card = 2)
    (hcard_f : ∀ b ∈ ts_forming_bond_keys g, b.card = 2)
    (hdisj : ∀ b ∈ ts_breaking_bond_keys g, b ∉ ts_forming_bond_keys g)
    (hm : atom_transfers g = some m) (hk : dlookup k m = some (d, a)) :
    d ≠ k ∧ a ≠ k ∧ d ≠ a := by
  unfold atom_transfers at hm
  have := atomTransfersAux_entries _ [] m (by intro e he; exact absurd he (List.not_mem_nil _))
    hm (k, (d, a)) (dlookup_mem hk)
  exact this

/-- C6 witness: the scenario graph entry sending 2 to (1, 3) has donor,
acceptor and transferring atom pairwise distinct. -/
theorem C6_witness : (1 : ℕ) ≠ 2 ∧ (3 : ℕ) ≠ 2 ∧ (1 : ℕ) ≠ 3 :=
  C6_transfer_entries_distinct gScn [(2, (1, 3))] 2 1 3
    (by decide) (by decide) (by decide) (by decide) (by decide)

lemma bool_xnor_form (a b c d : Bool) :
    (!((!(a.xor b)).xor (!(c.xor d)))) = (!((a.xor b).xor (c.xor d))) := by
  cases a <;> cases b <;> cases c <;> cases d <;> rfl

lemma constrainedAux_entries (L : GraphLib) (g : MolGraph) :
    ∀ (bl : List (Finset ℕ)) (acc m : List (Finset ℕ × Bool)),
    (∀ e ∈ acc, ConstrainedSpec g e.1 e.2) →
    constrainedAux L g bl acc = some m →
    ∀ e ∈ m, ConstrainedSpec g e.1 e.2 := by
  intro bl
  induction bl with
  | nil =>
    intro acc m hacc haux
    simp only [constrainedAux, Option.some.injEq] at haux
    rw [← haux]
    exact hacc
  | cons bkey rest ih =>
    intro acc m hacc haux
    simp only [constrainedAux] at haux
    by_cases hall : ((finList bkey).all (fun k => (g.atomPar k).isSome)) = true
    · rw [if_pos hall] at haux
      split at haux
      · next key1 key2 hfl =>
        split at haux
        · next hf1 => exact absurd haux (by simp)
        · next f1 hf1 =>
          rcases h0 : theOnly (f1 \ {key1}) with _ | key0
          · rw [h0] at haux
            exact absurd haux (by simp)
          · rw [h0] at haux
            simp only [Option.some_bind] at haux
            split at haux
            · next hf2 => exact absurd haux (by simp)
            · next f2 hf2 =>
              rcases h3 : theOnly (f2 \ {key2}) with _ | key3
              · rw [h3] at haux
                exact absurd haux (by simp)
              · rw [h3] at haux
                simp only [Option.some_bind] at haux
                by_cases hany : ((L.forming_rings_atom_keys g).any
                    (fun rkeys => decide ((({key0, key1, key2, key3} : Finset ℕ) ∩ rkeys) ≠ ∅))) = true
                · rw [if_pos hany] at haux
                  split at haux
                  · next pa1 pa2 hpa1 hpa2 =>
                    rcases hp1 : priKeySort (local_stereo_priorities g)
                        (atom_neighbor_atom_keys g key1) with _ | nk1s
                    · rw [hp1] at haux
                      exact absurd haux (by simp)
                    · rw [hp1] at haux
                      simp only [Option.some_bind] at haux
                      rcases hp2 : priKeySort (local_stereo_priorities g)
                          (atom_neighbor_atom_keys g key2) with _ | nk2s
                      · rw [hp2] at haux
                        exact absurd haux (by simp)
                      · rw [hp2] at haux
                        simp only [Option.some_bind] at haux
                        refine ih _ m ?_ haux
                        intro e he
                        rcases mem_dictInsert he with he1 | he1
                        · rw [he1]
                          refine ⟨key1, key2, key0, key3, pa1, pa2, nk1s, nk2s,
                            hfl, hpa1, hpa2, ⟨f1, hf1, h0⟩, ⟨f2, hf2, h3⟩, hp1, hp2, ?_⟩
                          exact bool_xnor_form pa1 _ pa2 _
                        · exact hacc e he1
                  · next hne => exact absurd haux (by simp)
                · rw [if_neg hany] at haux
                  exact ih _ m hacc haux
      · next hother => exact absurd haux (by simp)
    · rw [if_neg hall] at haux
      exact ih _ m hacc haux

/-- C5: every constrained bond entry produced by
constrained_1_2_insertion_local_parities carries the parity
NOT((p_a1 XOR p_1) XOR (p_a2 XOR p_2)), where p_a1 and p_a2 are the stored
local parities of the two bond atoms and p_1 and p_2 are the permutation
parities needed to move each atom's bond partner and forming-bond partner
to the front of its priority-sorted neighbor list. -/
theorem C5_constrained_insertion_parity_formula (L : GraphLib) (g : MolGraph)
    (m : List (Finset ℕ × Bool)) (bkey : Finset ℕ) (v : Bool)
    (hm : constrained_1_2_insertion_local_parities L g = some m)
    (hv : dlookup bkey m = some v) :
    ConstrainedSpec g bkey v := by
  unfold constrained_1_2_insertion_local_parities at hm
  exact constrainedAux_entries L g _ [] m
    (by intro e he; exact absurd he (List.not_mem_nil _)) hm (bkey, v) (dlookup_mem hv)

/-- C5 witness: the concrete constrained 1,2-insertion graph yields the
entry for bond 1-2 with value true, which satisfies the parity formula. -/
theorem C5_witness : ConstrainedSpec gC5 {1, 2} true :=
  C5_constrained_insertion_parity_formula libC5 gC5 [({1, 2}, true)] {1, 2} true
    (by decide) (by decide)

lemma vinylAux_entries (L : GraphLib) (g gra : MolGraph) (vin0 : List (ℕ × Finset ℕ)) :
    ∀ (vl : List (ℕ × Finset ℕ)) (acc m : List (Finset ℕ × Bool)),
    (∀ p ∈ vl, p ∈ vin0) →
    (∀ e ∈ acc, VinylSpec L g gra vin0 e.1 e.2) →
    vinylAux L g gra vl acc = some m →
    ∀ e ∈ m, VinylSpec L g gra vin0 e.1 e.2 := by
  intro vl
  induction vl with
  | nil =>
    intro acc m _ hacc haux
    simp only [vinylAux, Option.some.injEq] at haux
    rw [← haux]
    exact hacc
  | cons p rest ih =>
    intro acc m hsub hacc haux
    rcases p with ⟨akey, bkey⟩
    have hsub' : ∀ p ∈ rest, p ∈ vin0 :=
      fun p hp => hsub p (List.mem_cons_of_mem _ hp)
    simp only [vinylAux] at haux
    by_cases hst : bkey ∈ bond_stereo_keys g
    · rw [if_pos hst] at haux
      split at haux
      · exact absurd haux (by simp)
      · next par hpar =>
        rcases hto : theOnly (bkey \ {akey}) with _ | nkey
        · rw [hto] at haux
          exact absurd haux (by simp)
        · rw [hto] at haux
          simp only [Option.some_bind] at haux
          by_cases hne :
              (bond_stereo_sorted_neighbor_keys L gra akey nkey
                (some (local_stereo_priorities g))).1 ≠ []
          · rw [if_pos hne] at haux
            split at haux
            · exact absurd haux (by simp)
            · next tlast hlast =>
              by_cases hcmp :
                  (bond_stereo_sorted_neighbor_keys L gra akey nkey
                    (some (local_stereo_priorities g))).1.getLast? ≠ some tlast
              · rw [if_pos hcmp] at haux
                refine ih _ m hsub' ?_ haux
                intro e he
                rcases mem_dictInsert he with he1 | he1
                · rw [he1]
                  refine ⟨akey, nkey, par, hsub _ (List.mem_cons_self _ _), hst, hpar,
                    hto, ⟨hne, ?_⟩, rfl⟩
                  rw [hlast]
                  exact hcmp
                · exact hacc e he1
              · rw [if_neg hcmp] at haux
                exact ih _ m hsub' hacc haux
          · rw [if_neg hne] at haux
            exact ih _ m hsub' hacc haux
    · rw [if_neg hst] at haux
      exact ih _ m hsub' hacc haux

lemma vinylAux_absent (L : GraphLib) (g gra : MolGraph) (bkey : Finset ℕ) :
    ∀ (vl : List (ℕ × Finset ℕ)) (acc m : List (Finset ℕ × Bool)),
    (∀ akey, (akey, bkey) ∈ vl → bkey ∈ bond_stereo_keys g →
      ∀ nkey, theOnly (bkey \ {akey}) = some nkey →
      ¬ VinylChanged L g gra akey nkey) →
    dlookup bkey acc = none →
    vinylAux L g gra vl acc = some m →
    dlookup bkey m = none := by
  intro vl
  induction vl with
  | nil =>
    intro acc m _ hacc haux
    simp only [vinylAux, Option.some.injEq] at haux
    rw [← haux]
    exact hacc
  | cons p rest ih =>
    intro acc m hnot hacc haux
    rcases p with ⟨akey, bkey2⟩
    have hnot' : ∀ akey, (akey, bkey) ∈ rest → bkey ∈ bond_stereo_keys g →
        ∀ nkey, theOnly (bkey \ {akey}) = some nkey →
        ¬ VinylChanged L g gra akey nkey :=
      fun a ha => hnot a (List.mem_cons_of_mem _ ha)
    simp only [vinylAux] at haux
    by_cases hst : bkey2 ∈ bond_stereo_keys g
    · rw [if_pos hst] at haux
      split at haux
      · exact absurd haux (by simp)
      · next par hpar =>
        rcases hto : theOnly (bkey2 \ {akey}) with _ | nkey
        · rw [hto] at haux
          exact absurd haux (by simp)
        · rw [hto] at haux
          simp only [Option.some_bind] at haux
          by_cases hne :
              (bond_stereo_sorted_neighbor_keys L gra akey nkey
                (some (local_stereo_priorities g))).1 ≠ []
          · rw [if_pos hne] at haux
            split at haux
            · exact absurd haux (by simp)
            · next tlast hlast =>
              by_cases hcmp :
                  (bond_stereo_sorted_neighbor_keys L gra akey nkey
                    (some (local_stereo_priorities g))).1.getLast? ≠ some tlast
              · rw [if_pos hcmp] at haux
                by_cases hbk : bkey2 = bkey
                · exfalso
                  subst hbk
                  refine hnot akey (List.mem_cons_self _ _) hst nkey hto ⟨hne, ?_⟩
                  rw [hlast]
                  exact hcmp
                · refine ih _ m hnot' ?_ haux
                  rw [dlookup_dictInsert_ne _ _ hbk]
                  exact hacc
              · rw [if_neg hcmp] at haux
                exact ih _ m hnot' hacc haux
          · rw [if_neg hne] at haux
            exact ih _ m hnot' hacc haux
    · rw [if_neg hst] at haux
      exact ih _ m hnot' hacc haux

/-- C10: whenever vinyl_addition_local_parities returns a result, every
entry of that result belongs to a vinyl stereo bond whose highest-priority
neighbor on the reactants-only view differs from the one on the full TS
view and carries the logical negation of the stored bond parity, and every
vinyl stereo bond whose highest-priority neighbor is unchanged is absent
from the result. -/
theorem C10_vinyl_addition_entries (L : GraphLib) (g : MolGraph)
    (m : List (Finset ℕ × Bool))
    (hm : vinyl_addition_local_parities L g = some m) :
    (∀ bkey v, dlookup bkey m = some v →
      VinylSpec L g (ts_reactants_graph_without_stereo g)
        (L.vinyl_radical_atom_bond_keys (ts_reactants_graph_without_stereo g)) bkey v) ∧
    (∀ bkey : Finset ℕ,
      (∀ akey, (akey, bkey) ∈
          L.vinyl_radical_atom_bond_keys (ts_reactants_graph_without_stereo g) →
        bkey ∈ bond_stereo_keys g →
        ∀ nkey, theOnly (bkey \ {akey}) = some nkey →
        ¬ VinylChanged L g (ts_reactants_graph_without_stereo g) akey nkey) →
      dlookup bkey m = none) := by
  unfold vinyl_addition_local_parities at hm
  constructor
  · intro bkey v hv
    exact vinylAux_entries L g _ _ _ [] m (fun p hp => hp)
      (by intro e he; exact absurd he (List.not_mem_nil _)) hm (bkey, v) (dlookup_mem hv)
  · intro bkey hnot
    exact vinylAux_absent L g _ bkey _ [] m hnot rfl hm

/-- C10 witness: in the concrete vinyl addition graph the stereo bond 1-2
gains the entry false (the negated stored parity true), whose highest
priority neighbor changed between the two views. -/
theorem C10_witness :
    VinylSpec libC10 gC10 (ts_reactants_graph_without_stereo gC10)
      (libC10.vinyl_radical_atom_bond_keys (ts_reactants_graph_without_stereo gC10))
      {1, 2} false :=
  (C10_vinyl_addition_entries libC10 gC10 [({1, 2}, false)] (by decide)).1
    {1, 2} false (by decide)

lemma listIndex_lt_length {α : Type} [DecidableEq α] {x : α} {l : List α} (h : x ∈ l) :
    listIndex x l < l.length := by
  induction l with
  | nil => exact absurd h (List.not_mem_nil _)
  | cons a t ih =>
    by_cases hax : a = x
    · simp [listIndex, hax]
    · rcases List.mem_cons.mp h with h1 | h1
      · exact absurd h1.symm hax
      · simp only [listIndex, if_neg hax, List.length_cons]
        exact Nat.succ_lt_succ (ih h1)

lemma get?_listIndex {α : Type} [DecidableEq α] {x : α} {l : List α} (h : x ∈ l) :
    l.get? (listIndex x l) = some x := by
  induction l with
  | nil => exact absurd h (List.not_mem_nil _)
  | cons a t ih =>
    by_cases hax : a = x
    · simp [listIndex, hax]
    · rcases List.mem_cons.mp h with h1 | h1
      · exact absurd h1.symm hax
      · simp only [listIndex, if_neg hax]
        exact ih h1

lemma listIndex_get? {α : Type} [DecidableEq α] {l : List α} (hn : l.Nodup) :
    ∀ {i : ℕ} {x : α}, l.get? i = some x → listIndex x l = i := by
  induction l with
  | nil => intro i x h; exact absurd h (by simp)
  | cons a t ih =>
    intro i x h
    rcases List.nodup_cons.mp hn with ⟨hat, hnt⟩
    cases i with
    | zero =>
      simp only [List.get?] at h
      have hax : a = x := Option.some.inj h
      simp [listIndex, hax]
    | succ n =>
      simp only [List.get?] at h
      have hxt : x ∈ t := List.get?_mem h
      have hax : a ≠ x := fun he => hat (he ▸ hxt)
      simp only [listIndex, if_neg hax]
      rw [ih hnt h]

lemma listIndex_map_inj {α : Type} [DecidableEq α] {σ : α → α}
    (hσ : Function.Injective σ) (a : α) (l : List α) :
    listIndex (σ a) (l.map σ) = listIndex a l := by
  induction l with
  | nil => rfl
  | cons b t ih =>
    by_cases hba : b = a
    · simp [listIndex, List.map_cons, hba]
    · have : σ b ≠ σ a := fun he => hba (hσ he)
      simp only [List.map_cons, listIndex, if_neg hba, if_neg this]
      rw [ih]

lemma swapFun_invol {α : Type} [DecidableEq α] (x y a : α) :
    swapFun x y (swapFun x y a) = a := by
  unfold swapFun
  by_cases h1 : a = x
  · rw [if_pos h1]
    by_cases h2 : y = x
    · rw [if_pos h2, h2, h1]
    · rw [if_neg h2, if_pos rfl]
      exact h1.symm
  · by_cases h2 : a = y
    · rw [if_neg h1, if_pos h2, if_pos rfl]
      exact h2.symm
    · rw [if_neg h1, if_neg h2, if_neg h1, if_neg h2]

lemma swapFun_injective {α : Type} [DecidableEq α] (x y : α) :
    Function.Injective (swapFun x y) := by
  intro a b h
  have := congrArg (swapFun x y) h
  rwa [swapFun_invol, swapFun_invol] at this

lemma map_eq_self_of_forall {α : Type} {l : List α} {f : α → α}
    (h : ∀ b ∈ l, f b = b) : l.map f = l := by
  induction l with
  | nil => rfl
  | cons a t ih =>
    rw [List.map_cons, h a (List.mem_cons_self _ _), ih (fun b hb => h b (List.mem_cons_of_mem _ hb))]

lemma map_map_invol {α : Type} [DecidableEq α] {σ : α → α}
    (hinv : ∀ a, σ (σ a) = a) (l : List α) : (l.map σ).map σ = l := by
  rw [List.map_map]
  have : σ ∘ σ = id := funext hinv
  rw [this, List.map_id]

lemma cnt_eq_zero {α : Type} [DecidableEq α] {x : α} : ∀ {l : List α}, cnt x l = 0 ↔ x ∉ l := by
  intro l
  induction l with
  | nil => simp [cnt]
  | cons a t ih =>
    by_cases hax : a = x
    · simp [cnt, hax]
    · simp only [cnt, if_neg hax, Nat.zero_add, ih, List.mem_cons]
      constructor
      · intro h hc
        rcases hc with hc | hc
        · exact hax hc.symm
        · exact h hc
      · intro h hc
        exact h (Or.inr hc)

lemma cnt_append {α : Type} [DecidableEq α] (x : α) (l1 l2 : List α) :
    cnt x (l1 ++ l2) = cnt x l1 + cnt x l2 := by
  induction l1 with
  | nil => simp [cnt]
  | cons a t ih =>
    show (if a = x then 1 else 0) + cnt x (t ++ l2) =
      ((if a = x then 1 else 0) + cnt x t) + cnt x l2
    rw [ih]
    omega

lemma cnt_perm {α : Type} [DecidableEq α] {l1 l2 : List α} (h : l1.Perm l2) (x : α) :
    cnt x l1 = cnt x l2 := by
  induction h with
  | nil => rfl
  | cons a _ ih => simp only [cnt, ih]
  | swap a b l =>
    simp only [cnt, ← Nat.add_assoc]
    rw [Nat.add_comm (if b = x then 1 else 0) (if a = x then 1 else 0)]
  | trans _ _ ih1 ih2 => exact ih1.trans ih2

lemma cnt_eq_one_of_mem {α : Type} [DecidableEq α] {x : α} :
    ∀ {l : List α}, l.Nodup → x ∈ l → cnt x l = 1 := by
  intro l
  induction l with
  | nil => intro _ h; exact absurd h (List.not_mem_nil _)
  | cons a t ih =>
    intro hn hm
    rcases List.nodup_cons.mp hn with ⟨hat, hnt⟩
    by_cases hax : a = x
    · have hxt : x ∉ t := fun hc => hat (hax ▸ hc)
      simp only [cnt, if_pos hax, cnt_eq_zero.mpr hxt]
    · rcases List.mem_cons.mp hm with he | hm2
      · exact absurd he.symm hax
      · simp only [cnt, if_neg hax, Nat.zero_add]
        exact ih hnt hm2

lemma set_listIndex_eq_map_swapFun {α : Type} [DecidableEq α] {x y : α} :
    ∀ {l : List α}, cnt x l = 1 → y ∉ l →
    l.set (listIndex x l) y = l.map (swapFun x y) := by
  intro l
  induction l with
  | nil => intro _ _; rfl
  | cons a t ih =>
    intro hc hy
    have hya : y ≠ a := fun he => hy (he ▸ List.mem_cons_self _ _)
    have hyt : y ∉ t := fun ht => hy (List.mem_cons_of_mem _ ht)
    by_cases hax : a = x
    · have hc' : cnt x t = 0 := by
        simp only [cnt, if_pos hax] at hc
        omega
      have hxt : x ∉ t := cnt_eq_zero.mp hc'
      have h1 : swapFun x y a = y := by rw [swapFun, if_pos hax]
      have h2 : t.map (swapFun x y) = t := by
        apply map_eq_self_of_forall
        intro b hb
        have hbx : b ≠ x := fun he => hxt (he ▸ hb)
        have hby : b ≠ y := fun he => hyt (he ▸ hb)
        rw [swapFun, if_neg hbx, if_neg hby]
      simp only [listIndex, if_pos hax, List.set, List.map_cons, h1, h2]
    · have hct : cnt x t = 1 := by
        simp only [cnt, if_neg hax] at hc
        omega
      have h1 : swapFun x y a = a := by
        have hay : a ≠ y := fun he => hya he.symm
        rw [swapFun, if_neg hax, if_neg hay]
      simp only [listIndex, if_neg hax, List.set, List.map_cons, h1]
      rw [ih hct hyt]

lemma invPairs_map {α : Type} [DecidableEq α] {σ : α → α}
    (hinv : ∀ a, σ (σ a) = a) (l1 l2 : List α) :
    invPairs (l1.map σ) l2 = invPairs l1 (l2.map σ) := by
  have hinj : Function.Injective σ := fun a b h => by
    have := congrArg σ h
    rwa [hinv, hinv] at this
  unfold invPairs
  rw [List.length_map]
  apply Finset.filter_congr
  intro p _
  have hm : ∀ j : ℕ, posOf (l1.map σ) l2 j = posOf l1 (l2.map σ) j := by
    intro j
    unfold posOf
    rw [List.get?_map]
    cases l1.get? j with
    | none => rfl
    | some x =>
      show listIndex (σ x) l2 = listIndex x (l2.map σ)
      have : listIndex (σ (σ x)) (l2.map σ) = listIndex (σ x) l2 := listIndex_map_inj hinj _ _
      rw [hinv x] at this
      exact this.symm
  rw [hm p.1, hm p.2]

lemma posOf_lt {α : Type} [DecidableEq α] {l1 l2 : List α} (hp : l1.Perm l2)
    {i : ℕ} (hi : i < l1.length) : posOf l1 l2 i < l2.length := by
  rcases h : l1.get? i with _ | x
  · rw [List.get?_eq_none] at h
    omega
  · have hx1 : x ∈ l1 := List.get?_mem h
    have hx2 : x ∈ l2 := hp.mem_iff.mp hx1
    unfold posOf
    rw [h]
    exact listIndex_lt_length hx2

lemma posOf_posOf {α : Type} [DecidableEq α] {l1 l2 : List α}
    (hn : l1.Nodup) (hp : l1.Perm l2) {i : ℕ} (hi : i < l1.length) :
    posOf l2 l1 (posOf l1 l2 i) = i := by
  rcases h : l1.get? i with _ | x
  · rw [List.get?_eq_none] at h
    omega
  · have hx1 : x ∈ l1 := List.get?_mem h
    have hx2 : x ∈ l2 := hp.mem_iff.mp hx1
    unfold posOf
    rw [h, get?_listIndex hx2]
    exact listIndex_get? hn h

lemma mem_invPairs {α : Type} [DecidableEq α] {l1 l2 : List α} {p : ℕ × ℕ} :
    p ∈ invPairs l1 l2 ↔
      p.1 < l1.length ∧ p.2 < l1.length ∧ p.1 < p.2 ∧
        posOf l1 l2 p.2 < posOf l1 l2 p.1 := by
  unfold invPairs
  rw [Finset.mem_filter, Finset.mem_product, Finset.mem_range, Finset.mem_range]
  tauto

lemma invPairs_card_symm {α : Type} [DecidableEq α] {l1 l2 : List α}
    (hn : l1.Nodup) (hp : l1.Perm l2) :
    (invPairs l1 l2).card = (invPairs l2 l1).card := by
  have hn2 : l2.Nodup := hp.nodup_iff.mp hn
  have hlen : l2.length = l1.length := hp.length_eq.symm
  refine Finset.card_bij'
    (fun p _ => (posOf l1 l2 p.2, posOf l1 l2 p.1))
    (fun q _ => (posOf l2 l1 q.2, posOf l2 l1 q.1)) ?_ ?_ ?_ ?_
  · intro p hmem
    rcases mem_invPairs.mp hmem with ⟨h1, h2, h3, h4⟩
    refine mem_invPairs.mpr ⟨posOf_lt hp h2, posOf_lt hp h1, h4, ?_⟩
    rw [posOf_posOf hn hp h1, posOf_posOf hn hp h2]
    exact h3
  · intro q hmem
    rcases mem_invPairs.mp hmem with ⟨h1, h2, h3, h4⟩
    refine mem_invPairs.mpr ⟨posOf_lt hp.symm h2, posOf_lt hp.symm h1, h4, ?_⟩
    rw [posOf_posOf hn2 hp.symm h1, posOf_posOf hn2 hp.symm h2]
    exact h3
  · intro p hmem
    rcases mem_invPairs.mp hmem with ⟨h1, h2, _, _⟩
    rcases p with ⟨i, j⟩
    simp only
    rw [posOf_posOf hn hp h1, posOf_posOf hn hp h2]
  · intro q hmem
    rcases mem_invPairs.mp hmem with ⟨h1, h2, _, _⟩
    rcases q with ⟨i, j⟩
    simp only
    rw [posOf_posOf hn2 hp.symm h1, posOf_posOf hn2 hp.symm h2]

lemma ep_symm {α : Type} [DecidableEq α] (l1 l2 : List α) :
    is_even_permutation l1 l2 = is_even_permutation l2 l1 := by
  unfold is_even_permutation
  by_cases h : l1.Nodup ∧ l1.Perm l2
  · have h2 : l2.Nodup ∧ l2.Perm l1 := ⟨h.2.nodup_iff.mp h.1, h.2.symm⟩
    rw [if_pos h, if_pos h2, invPairs_card_symm h.1 h.2]
  · have h2 : ¬(l2.Nodup ∧ l2.Perm l1) := by
      intro hh
      exact h ⟨hh.2.nodup_iff.mp hh.1, hh.2.symm⟩
    rw [if_neg h, if_neg h2]

lemma ep_map {α : Type} [DecidableEq α] {σ : α → α}
    (hinv : ∀ a, σ (σ a) = a) (l1 l2 : List α) :
    is_even_permutation (l1.map σ) l2 = is_even_permutation l1 (l2.map σ) := by
  have hinj : Function.Injective σ := fun a b h => by
    have := congrArg σ h
    rwa [hinv, hinv] at this
  unfold is_even_permutation
  by_cases h : (l1.map σ).Nodup ∧ (l1.map σ).Perm l2
  · have h1n : l1.Nodup := by
      have := h.1
      exact this.of_map σ
    have h1p : l1.Perm (l2.map σ) := by
      have := h.2.map σ
      rwa [map_map_invol hinv] at this
    rw [if_pos h, if_pos ⟨h1n, h1p⟩, invPairs_map hinv]
  · have h' : ¬(l1.Nodup ∧ l1.Perm (l2.map σ)) := by
      intro hh
      refine h ⟨hh.1.map hinj, ?_⟩
      have := hh.2.map σ
      rwa [map_map_invol hinv] at this
    rw [if_neg h, if_neg h']

lemma ep_swap_exchange {α : Type} [DecidableEq α] {σ : α → α}
    (hinv : ∀ a, σ (σ a) = a) (l1 l2 : List α) :
    is_even_permutation (l1.map σ) l2 = is_even_permutation (l2.map σ) l1 := by
  rw [ep_map hinv, ep_symm]

lemma swapFun_comm {α : Type} [DecidableEq α] (x y : α) : swapFun x y = swapFun y x := by
  funext a
  unfold swapFun
  by_cases h1 : a = x
  · by_cases h2 : a = y
    · rw [if_pos h1, if_pos h2, ← h1, ← h2]
    · rw [if_pos h1, if_neg h2, if_pos h1]
  · by_cases h2 : a = y
    · rw [if_neg h1, if_pos h2, if_pos h2]
    · rw [if_neg h1, if_neg h2, if_neg h2, if_neg h1]

lemma without_dummy_eq_self {g : MolGraph} (h : g.dummies = []) :
    without_dummy_atoms g = g := by
  rcases g with ⟨atoms, bonds, nhyd, pri, ap, bp, dum⟩
  simp only at h
  subst h
  unfold without_dummy_atoms
  simp only [MolGraph.mk.injEq, and_true, true_and]
  constructor
  · apply List.filter_eq_self.mpr
    intro x _
    simp
  · apply List.filter_eq_self.mpr
    intro x _
    simp [List.all_nil]

lemma ts_reverse_bonds_card {g : MolGraph} (h : ∀ p ∈ g.bonds, (p.1).card = 2) :
    ∀ p ∈ (ts_reverse g).bonds, (p.1).card = 2 := by
  intro p hp
  unfold ts_reverse at hp
  simp only [List.mem_map] at hp
  obtain ⟨q, hq, he⟩ := hp
  rw [← he]
  exact h q hq

lemma ts_reverse_keys_nodup {g : MolGraph} (h : (g.bonds.map Prod.fst).Nodup) :
    ((ts_reverse g).bonds.map Prod.fst).Nodup := by
  show ((g.bonds.map (fun p => (p.1, p.2.rev))).map Prod.fst).Nodup
  rw [List.map_map]
  exact h

lemma mem_nbrsFinset {g : MolGraph} {k x : ℕ} :
    x ∈ nbrsFinset g k ↔ ∃ p ∈ g.bonds, k ∈ p.1 ∧ x ∈ p.1.erase k := by
  suffices h : ∀ l : List (Finset ℕ × BondTag),
      (x ∈ l.foldr (fun p s => if k ∈ p.1 then s ∪ p.1.erase k else s) ∅ ↔
        ∃ p ∈ l, k ∈ p.1 ∧ x ∈ p.1.erase k) from h g.bonds
  intro l
  induction l with
  | nil => simp
  | cons p t ih =>
    simp only [List.foldr_cons]
    by_cases hk : k ∈ p.1
    · rw [if_pos hk]
      constructor
      · intro hx
        rcases Finset.mem_union.mp hx with hx1 | hx1
        · obtain ⟨q, hq, h1, h2⟩ := ih.mp hx1
          exact ⟨q, List.mem_cons_of_mem _ hq, h1, h2⟩
        · exact ⟨p, List.mem_cons_self _ _, hk, hx1⟩
      · rintro ⟨q, hq, h1, h2⟩
        rcases List.mem_cons.mp hq with he | hq2
        · subst he
          exact Finset.mem_union.mpr (Or.inr h2)
        · exact Finset.mem_union.mpr (Or.inl (ih.mpr ⟨q, hq2, h1, h2⟩))
    · rw [if_neg hk]
      constructor
      · intro hx
        obtain ⟨q, hq, h1, h2⟩ := ih.mp hx
        exact ⟨q, List.mem_cons_of_mem _ hq, h1, h2⟩
      · rintro ⟨q, hq, h1, h2⟩
        rcases List.mem_cons.mp hq with he | hq2
        · subst he
          exact absurd h1 hk
        · exact ih.mpr ⟨q, hq2, h1, h2⟩

lemma mem_breaking_iff {g : MolGraph} {b : Finset ℕ} :
    b ∈ ts_breaking_bond_keys g ↔ (b, BondTag.breaking) ∈ g.bonds := by
  unfold ts_breaking_bond_keys
  rw [List.mem_filterMap]
  constructor
  · rintro ⟨p, hp, hpe⟩
    by_cases ht : p.2 = BondTag.breaking
    · rw [if_pos ht] at hpe
      have h1 : p.1 = b := Option.some.inj hpe
      have h2 : p = (b, BondTag.breaking) := by
        rcases p with ⟨p1, p2⟩
        simp only at h1 ht
        rw [h1, ht]
      rw [← h2]
      exact hp
    · rw [if_neg ht] at hpe
      exact absurd hpe (by simp)
  · intro hp
    exact ⟨(b, BondTag.breaking), hp, by simp⟩

lemma mem_forming_iff {g : MolGraph} {b : Finset ℕ} :
    b ∈ ts_forming_bond_keys g ↔ (b, BondTag.forming) ∈ g.bonds := by
  unfold ts_forming_bond_keys
  rw [List.mem_filterMap]
  constructor
  · rintro ⟨p, hp, hpe⟩
    by_cases ht : p.2 = BondTag.forming
    · rw [if_pos ht] at hpe
      have h1 : p.1 = b := Option.some.inj hpe
      have h2 : p = (b, BondTag.forming) := by
        rcases p with ⟨p1, p2⟩
        simp only at h1 ht
        rw [h1, ht]
      rw [← h2]
      exact hp
    · rw [if_neg ht] at hpe
      exact absurd hpe (by simp)
  · intro hp
    exact ⟨(b, BondTag.forming), hp, by simp⟩

lemma keys_of_mem_dictInsert {K V : Type} [DecidableEq K] {k : K} {v : V}
    {m : List (K × V)} {x : K}
    (h : x ∈ (dictInsert k v m).map Prod.fst) : x = k ∨ x ∈ m.map Prod.fst := by
  rw [List.mem_map] at h
  obtain ⟨e, he, hex⟩ := h
  rcases mem_dictInsert he with h1 | h1
  · left
    rw [← hex, h1]
  · right
    exact List.mem_map.mpr ⟨e, h1, hex⟩

lemma keysNodup_dictInsert {K V : Type} [DecidableEq K] (k : K) (v : V) :
    ∀ {m : List (K × V)}, (m.map Prod.fst).Nodup →
      ((dictInsert k v m).map Prod.fst).Nodup := by
  intro m
  induction m with
  | nil =>
    intro _
    simp [dictInsert]
  | cons e t ih =>
    intro hn
    rcases e with ⟨k', v'⟩
    simp only [List.map_cons] at hn
    rcases List.nodup_cons.mp hn with ⟨hkt, hnt⟩
    by_cases hk : k' = k
    · subst hk
      simp only [dictInsert, if_pos rfl, List.map_cons]
      exact List.nodup_cons.mpr ⟨hkt, hnt⟩
    · simp only [dictInsert, if_neg hk, List.map_cons]
      refine List.nodup_cons.mpr ⟨?_, ih hnt⟩
      intro hmem
      rcases keys_of_mem_dictInsert hmem with h1 | h1
      · exact hk h1
      · exact hkt h1

lemma atomTransfersAux_keysNodup :
    ∀ (ps : List (Finset ℕ × Finset ℕ)) (acc m : List (ℕ × (ℕ × ℕ))),
    (acc.map Prod.fst).Nodup → atomTransfersAux ps acc = some m →
    (m.map Prod.fst).Nodup := by
  intro ps
  induction ps with
  | nil =>
    intro acc m hacc haux
    simp only [atomTransfersAux, Option.some.injEq] at haux
    rw [← haux]
    exact hacc
  | cons p rest ih =>
    intro acc m hacc haux
    rcases p with ⟨b, f⟩
    simp only [atomTransfersAux] at haux
    by_cases hemp : (b ∩ f) = ∅
    · rw [if_pos hemp] at haux
      exact ih acc m hacc haux
    · rw [if_neg hemp] at haux
      rcases h1 : theOnly (b ∩ f) with _ | t
      · rw [h1] at haux
        exact absurd haux (by simp)
      · rw [h1] at haux
        rcases h2 : theOnly (b \ f) with _ | d
        · rw [h2] at haux
          exact absurd haux (by simp)
        · rw [h2] at haux
          rcases h3 : theOnly (f \ b) with _ | a
          · rw [h3] at haux
            exact absurd haux (by simp)
          · rw [h3] at haux
            simp only [Option.some_bind] at haux
            exact ih _ m (keysNodup_dictInsert _ _ hacc) haux

lemma atomTransfersAux_sources (ps0 : List (Finset ℕ × Finset ℕ)) :
    ∀ (ps : List (Finset ℕ × Finset ℕ)) (acc m : List (ℕ × (ℕ × ℕ))),
    (∀ p ∈ ps, p ∈ ps0) →
    (∀ e ∈ acc, ∃ p ∈ ps0, theOnly (p.1 ∩ p.2) = some e.1 ∧
      theOnly (p.1 \ p.2) = some e.2.1 ∧ theOnly (p.2 \ p.1) = some e.2.2) →
    atomTransfersAux ps acc = some m →
    ∀ e ∈ m, ∃ p ∈ ps0, theOnly (p.1 ∩ p.2) = some e.1 ∧
      theOnly (p.1 \ p.2) = some e.2.1 ∧ theOnly (p.2 \ p.1) = some e.2.2 := by
  intro ps
  induction ps with
  | nil =>
    intro acc m _ hacc haux
    simp only [atomTransfersAux, Option.some.injEq] at haux
    rw [← haux]
    exact hacc
  | cons p rest ih =>
    intro acc m hsub hacc haux
    rcases p with ⟨b, f⟩
    have hsub' : ∀ p ∈ rest, p ∈ ps0 := fun p hp => hsub p (List.mem_cons_of_mem _ hp)
    simp only [atomTransfersAux] at haux
    by_cases hemp : (b ∩ f) = ∅
    · rw [if_pos hemp] at haux
      exact ih acc m hsub' hacc haux
    · rw [if_neg hemp] at haux
      rcases h1 : theOnly (b ∩ f) with _ | t
      · rw [h1] at haux
        exact absurd haux (by simp)
      · rw [h1] at haux
        rcases h2 : theOnly (b \ f) with _ | d
        · rw [h2] at haux
          exact absurd haux (by simp)
        · rw [h2] at haux
          rcases h3 : theOnly (f \ b) with _ | a
          · rw [h3] at haux
            exact absurd haux (by simp)
          · rw [h3] at haux
            simp only [Option.some_bind] at haux
            refine ih _ m hsub' ?_ haux
            intro e he
            rcases mem_dictInsert he with he1 | he1
            · rw [he1]
              exact ⟨(b, f), hsub _ (List.mem_cons_self _ _), h1, h2, h3⟩
            · exact hacc e he1

lemma cnt_map_some (d : ℕ) (l : List ℕ) : cnt (some d) (l.map some) = cnt d l := by
  induction l with
  | nil => rfl
  | cons a t ih =>
    by_cases had : a = d
    · simp only [List.map_cons, cnt, if_pos had, if_pos (congrArg some had), ih]
    · have h2 : (some a : Option ℕ) ≠ some d := fun he => had (Option.some.inj he)
      simp only [List.map_cons, cnt, if_neg had, if_neg h2, ih]

lemma cnt_replicate_none (d : ℕ) (n : ℕ) :
    cnt (some d) (List.replicate n (none : Option ℕ)) = 0 :=
  cnt_eq_zero.mpr (fun hmem => by
    have := List.eq_of_mem_replicate hmem
    exact absurd this (by simp))

lemma prioritySort_cnt (pri : ℕ → Option ℤ) (l : List (Option ℕ)) (e : Option ℕ) :
    cnt e (prioritySort pri l) = cnt e l := by
  unfold prioritySort
  exact cnt_perm
    (@List.perm_insertionSort (Option ℕ) (fun a b => obLE (a.bind pri) (b.bind pri))
      (fun a b => obLE.instDec _ _) l) e

lemma prioritySort_mem {pri : ℕ → Option ℤ} {l : List (Option ℕ)} {e : Option ℕ} :
    e ∈ prioritySort pri l ↔ e ∈ l := by
  unfold prioritySort
  exact List.Perm.mem_iff
    (@List.perm_insertionSort (Option ℕ) (fun a b => obLE (a.bind pri) (b.bind pri))
      (fun a b => obLE.instDec _ _) l)

lemma atom_stereo_eq (L : GraphLib) (g : MolGraph) (k : ℕ)
    (hdum : g.dummies = []) {s : List (ℕ × (ℕ × ℕ))}
    (hs : substitutions L g = some s) (hks : (dlookup k s).isSome = true) :
    atom_stereo_sorted_neighbor_keys L g k false none =
      some (prioritySort (local_stereo_priorities g)
        ((atom_neighbor_atom_keys (ts_reactants_graph_without_stereo g) k).map some ++
          List.replicate (atom_implicit_hydrogens g k) none)) := by
  unfold atom_stereo_sorted_neighbor_keys atomStereoEntries
  rw [without_dummy_eq_self hdum]
  dsimp only
  rw [hs]
  dsimp only [Option.some_bind, Option.getD_none]
  rw [if_pos hks, if_neg]
  intro hc
  exact absurd hc.1 (by simp)

lemma subst_keysNodup (L : GraphLib) (g : MolGraph) {s : List (ℕ × (ℕ × ℕ))}
    (hs : substitution_atom_transfers L g = some s) : (s.map Prod.fst).Nodup := by
  unfold substitution_atom_transfers substitutions at hs
  obtain ⟨m0, hm0, hflt⟩ := Option.map_eq_some'.mp hs
  have h0 : (m0.map Prod.fst).Nodup := by
    unfold atom_transfers at hm0
    exact atomTransfersAux_keysNodup _ [] m0 (by simp) hm0
  rw [← hflt]
  exact List.Nodup.sublist (List.Sublist.map _ (List.filter_sublist _)) h0

lemma stereo_entry_facts (L : GraphLib) (g : MolGraph) (k d a : ℕ)
    (hwf2 : ∀ p ∈ g.bonds, (p.1).card = 2)
    (hwfn : (g.bonds.map Prod.fst).Nodup)
    (hdum : g.dummies = [])
    {s : List (ℕ × (ℕ × ℕ))}
    (hs : substitution_atom_transfers L g = some s)
    (hk : dlookup k s = some (d, a)) :
    ∃ Y, atom_stereo_sorted_neighbor_keys L g k false none = some Y ∧
      cnt (some d) Y = 1 ∧ (some a) ∉ Y := by
  have hs0 : substitutions L g = some s := hs
  unfold substitution_atom_transfers substitutions at hs
  obtain ⟨m0, hm0, hflt⟩ := Option.map_eq_some'.mp hs
  have hmem : (k, (d, a)) ∈ m0 := by
    have h1 := dlookup_mem hk
    rw [← hflt] at h1
    exact List.mem_of_mem_filter h1
  have hm0' : atomTransfersAux
      ((ts_breaking_bond_keys g).product (ts_forming_bond_keys g)) [] = some m0 := hm0
  have hsrc := atomTransfersAux_sources _ _ [] m0 (fun p hp => hp)
    (by intro e he; exact absurd he (List.not_mem_nil _)) hm0' (k, (d, a)) hmem
  obtain ⟨⟨b, f⟩, hbfmem, h1, h2, h3⟩ := hsrc
  have hbmem : b ∈ ts_breaking_bond_keys g := (List.pair_mem_product.mp hbfmem).1
  have hfmem : f ∈ ts_forming_bond_keys g := (List.pair_mem_product.mp hbfmem).2
  have hbbond : (b, BondTag.breaking) ∈ g.bonds := mem_breaking_iff.mp hbmem
  have hfbond : (f, BondTag.forming) ∈ g.bonds := mem_forming_iff.mp hfmem
  have hbf : b ∩ f = {k} := theOnly_eq_some.mp h1
  have hbd : b \ f = {d} := theOnly_eq_some.mp h2
  have hfa : f \ b = {a} := theOnly_eq_some.mp h3
  have hkb : k ∈ b := (Finset.mem_inter.mp (singleton_mem_of_eq hbf)).1
  have hkf : k ∈ f := (Finset.mem_inter.mp (singleton_mem_of_eq hbf)).2
  have hdb : d ∈ b := (Finset.mem_sdiff.mp (singleton_mem_of_eq hbd)).1
  have hdnf : d ∉ f := (Finset.mem_sdiff.mp (singleton_mem_of_eq hbd)).2
  have haf : a ∈ f := (Finset.mem_sdiff.mp (singleton_mem_of_eq hfa)).1
  have hanb : a ∉ b := (Finset.mem_sdiff.mp (singleton_mem_of_eq hfa)).2
  have hdk : d ≠ k := fun he => hdnf (he ▸ hkf)
  have hak : a ≠ k := fun he => hanb (he ▸ hkb)
  have hfcard : f.card = 2 := hwf2 _ hfbond
  have hfeq : f = {k, a} := by
    have hsub : ({k, a} : Finset ℕ) ⊆ f := by
      intro x hx
      rcases Finset.mem_insert.mp hx with he | hx2
      · rw [he]; exact hkf
      · rw [Finset.mem_singleton.mp hx2]; exact haf
    have hcard : f.card ≤ ({k, a} : Finset ℕ).card := by
      rw [hfcard, Finset.card_insert_of_not_mem (by
        rw [Finset.mem_singleton]
        exact fun he => hak he.symm), Finset.card_singleton]
    exact (Finset.eq_of_subset_of_card_le hsub hcard).symm
  have hsome : (dlookup k s).isSome = true := by rw [hk]; rfl
  refine ⟨_, atom_stereo_eq L g k hdum hs0 hsome, ?_, ?_⟩
  · -- count of the donor entry is one
    rw [prioritySort_cnt, cnt_append, cnt_map_some, cnt_replicate_none]
    have hdmem : d ∈ nbrsFinset (ts_reactants_graph_without_stereo g) k := by
      refine mem_nbrsFinset.mpr ⟨(b, BondTag.breaking), ?_, hkb, ?_⟩
      · refine List.mem_filter.mpr ⟨hbbond, ?_⟩
        simp
      · exact Finset.mem_erase.mpr ⟨hdk, hdb⟩
    have hdmem2 : d ∈ atom_neighbor_atom_keys (ts_reactants_graph_without_stereo g) k :=
      mem_finList.mpr hdmem
    have hcount : cnt d
        (atom_neighbor_atom_keys (ts_reactants_graph_without_stereo g) k) = 1 :=
      cnt_eq_one_of_mem (nodup_finList _) hdmem2
    omega
  · -- the acceptor is absent
    intro hmem2
    have hmem3 := prioritySort_mem.mp hmem2
    rcases List.mem_append.mp hmem3 with hmem4 | hmem4
    · rw [List.mem_map] at hmem4
      obtain ⟨x, hx, hxe⟩ := hmem4
      have hxa : x = a := Option.some.inj hxe
      subst hxa
      have hxn : x ∈ nbrsFinset (ts_reactants_graph_without_stereo g) k := mem_finList.mp hx
      obtain ⟨p, hp, hkp, hxp⟩ := mem_nbrsFinset.mp hxn
      have hpg : p ∈ g.bonds := List.mem_of_mem_filter hp
      have hpt : p.2 ≠ BondTag.forming := by
        have := (List.mem_filter.mp hp).2
        exact of_decide_eq_true this
      have hxp1 : x ∈ p.1 := (Finset.mem_erase.mp hxp).2
      have hxk : x ≠ k := (Finset.mem_erase.mp hxp).1
      have hpcard : (p.1).card = 2 := hwf2 _ hpg
      have hpeq : p.1 = {k, x} := by
        have hsub : ({k, x} : Finset ℕ) ⊆ p.1 := by
          intro z hz
          rcases Finset.mem_insert.mp hz with he | hz2
          · rw [he]; exact hkp
          · rw [Finset.mem_singleton.mp hz2]; exact hxp1
        have hcard : (p.1).card ≤ ({k, x} : Finset ℕ).card := by
          rw [hpcard, Finset.card_insert_of_not_mem (by
            rw [Finset.mem_singleton]
            exact fun he => hxk he.symm), Finset.card_singleton]
        exact (Finset.eq_of_subset_of_card_le hsub hcard).symm
      have hpf : p.1 = f := by rw [hpeq, hfeq]
      have hpeq2 : p = (f, BondTag.forming) := by
        refine List.inj_on_of_nodup_map hwfn hpg hfbond ?_
        exact hpf
      have : p.2 = BondTag.forming := by rw [hpeq2]
      exact hpt this
    · have := List.eq_of_mem_replicate hmem4
      exact absurd this (by simp)

lemma sn2Aux_preserve (L : GraphLib) (g : MolGraph) (k : ℕ) :
    ∀ (sl : List (ℕ × (ℕ × ℕ))) (acc m : List (ℕ × Bool)),
    k ∉ sl.map Prod.fst → sn2Aux L g sl acc = some m →
    dlookup k m = dlookup k acc := by
  intro sl
  induction sl with
  | nil =>
    intro acc m _ haux
    simp only [sn2Aux, Option.some.injEq] at haux
    rw [← haux]
  | cons e rest ih =>
    intro acc m hk haux
    rcases e with ⟨tra, don, acp⟩
    have hktra : tra ≠ k := by
      intro he
      exact hk (by
        rw [List.map_cons]
        exact List.mem_cons.mpr (Or.inl he.symm))
    have hkrest : k ∉ rest.map Prod.fst := fun hc => hk (by
      rw [List.map_cons]
      exact List.mem_cons_of_mem _ hc)
    simp only [sn2Aux] at haux
    rcases h0 : atom_stereo_sorted_neighbor_keys L g tra false none with _ | nks0
    · rw [h0] at haux
      exact absurd haux (by simp)
    · rw [h0] at haux
      simp only [Option.some_bind] at haux
      by_cases hin : (some don) ∈ nks0
      · rw [if_pos hin] at haux
        rcases h1 : atom_stereo_sorted_neighbor_keys L (ts_reverse g) tra false none with _ | nks1
        · rw [h1] at haux
          exact absurd haux (by simp)
        · rw [h1] at haux
          simp only [Option.some_bind] at haux
          rw [ih _ m hkrest haux, dlookup_dictInsert_ne _ _ hktra]
      · rw [if_neg hin] at haux
        exact absurd haux (by simp)

lemma sn2Aux_lookup (L : GraphLib) (g : MolGraph) :
    ∀ (sl : List (ℕ × (ℕ × ℕ))) (acc m : List (ℕ × Bool)) (k d a : ℕ),
    (k, (d, a)) ∈ sl → (sl.map Prod.fst).Nodup →
    sn2Aux L g sl acc = some m →
    ∃ nks0 nks1,
      atom_stereo_sorted_neighbor_keys L g k false none = some nks0 ∧
      (some d) ∈ nks0 ∧
      atom_stereo_sorted_neighbor_keys L (ts_reverse g) k false none = some nks1 ∧
      dlookup k m =
        some (is_even_permutation (nks0.set (listIndex (some d) nks0) (some a)) nks1) := by
  intro sl
  induction sl with
  | nil =>
    intro acc m k d a hmem _ _
    exact absurd hmem (List.not_mem_nil _)
  | cons e rest ih =>
    intro acc m k d a hmem hnod haux
    rcases e with ⟨tra, don, acp⟩
    simp only [List.map_cons] at hnod
    rcases List.nodup_cons.mp hnod with ⟨htra, hnrest⟩
    simp only [sn2Aux] at haux
    rcases h0 : atom_stereo_sorted_neighbor_keys L g tra false none with _ | nks0
    · rw [h0] at haux
      exact absurd haux (by simp)
    · rw [h0] at haux
      simp only [Option.some_bind] at haux
      by_cases hin : (some don) ∈ nks0
      · rw [if_pos hin] at haux
        rcases h1 : atom_stereo_sorted_neighbor_keys L (ts_reverse g) tra false none with _ | nks1
        · rw [h1] at haux
          exact absurd haux (by simp)
        · rw [h1] at haux
          simp only [Option.some_bind] at haux
          rcases List.mem_cons.mp hmem with heq | hmem2
          · have hktra : k = tra := congrArg Prod.fst heq
            have hda : (d, a) = (don, acp) := congrArg Prod.snd heq
            have hd : d = don := congrArg Prod.fst hda
            have ha : a = acp := congrArg Prod.snd hda
            subst hktra
            subst hd
            subst ha
            have hknot : k ∉ rest.map Prod.fst := htra
            have hpres := sn2Aux_preserve L g k rest _ m hknot haux
            rw [hpres, dlookup_dictInsert_self]
            exact ⟨nks0, nks1, h0, hin, h1, rfl⟩
          · exact ih _ m k d a hmem2 hnrest haux
      · rw [if_neg hin] at haux
        exact absurd haux (by simp)

/-- C7: for every TS graph and every Sn2 substitution site k (a site of both
the forward and the reversed substitution map, with donor and acceptor
swapped), the Sn2 local-stereo reversal flags computed on the reversed TS
graph and on the original TS graph agree at k whenever both computations
return. Well-formedness assumptions: bond keys are 2-element sets, bond
keys are distinct, and the graph carries no dummy atoms. -/
theorem C7_sn2_flip_flags_direction_independent (L : GraphLib) (g : MolGraph)
    (k d a : ℕ) (s1 s2 : List (ℕ × (ℕ × ℕ))) (m1 m2 : List (ℕ × Bool))
    (hwf2 : ∀ p ∈ g.bonds, (p.1).card = 2)
    (hwfn : (g.bonds.map Prod.fst).Nodup)
    (hdum : g.dummies = [])
    (hs1 : substitution_atom_transfers L g = some s1)
    (hk1 : dlookup k s1 = some (d, a))
    (hs2 : substitution_atom_transfers L (ts_reverse g) = some s2)
    (hk2 : dlookup k s2 = some (a, d))
    (hm1 : sn2_local_stereo_reversal_flips L g = some m1)
    (hm2 : sn2_local_stereo_reversal_flips L (ts_reverse g) = some m2) :
    dlookup k m2 = dlookup k m1 := by
  have hn1 : (s1.map Prod.fst).Nodup := subst_keysNodup L g hs1
  have hn2 : (s2.map Prod.fst).Nodup := subst_keysNodup L (ts_reverse g) hs2
  unfold sn2_local_stereo_reversal_flips at hm1 hm2
  rw [hs1] at hm1
  simp only [Option.some_bind] at hm1
  rw [hs2] at hm2
  simp only [Option.some_bind] at hm2
  obtain ⟨Y0, X0, hY0, hdY0, hX0, hlook1⟩ :=
    sn2Aux_lookup L g s1 [] m1 k d a (dlookup_mem hk1) hn1 hm1
  obtain ⟨X1, Y1, hX1, haX1, hY1, hlook2⟩ :=
    sn2Aux_lookup L (ts_reverse g) s2 [] m2 k a d (dlookup_mem hk2) hn2 hm2
  have hXeq : X1 = X0 := Option.some.inj (hX1.symm.trans hX0)
  rw [ts_reverse_ts_reverse] at hY1
  have hYeq : Y1 = Y0 := Option.some.inj (hY1.symm.trans hY0)
  obtain ⟨Y, hY, hcY, haY⟩ := stereo_entry_facts L g k d a hwf2 hwfn hdum hs1 hk1
  have hYY : Y = Y0 := Option.some.inj (hY.symm.trans hY0)
  obtain ⟨X, hX, hcX, hdX⟩ := stereo_entry_facts L (ts_reverse g) k a d
    (ts_reverse_bonds_card hwf2) (ts_reverse_keys_nodup hwfn) hdum hs2 hk2
  have hXX : X = X0 := Option.some.inj (hX.symm.trans hX0)
  rw [hYY] at hcY haY
  rw [hXX] at hcX hdX
  rw [hlook1, hlook2, hXeq, hYeq]
  have e1 : Y0.set (listIndex (some d) Y0) (some a) = Y0.map (swapFun (some d) (some a)) :=
    set_listIndex_eq_map_swapFun hcY haY
  have e2 : X0.set (listIndex (some a) X0) (some d) = X0.map (swapFun (some a) (some d)) :=
    set_listIndex_eq_map_swapFun hcX hdX
  rw [e1, e2, swapFun_comm (some a) (some d)]
  exact congrArg some (ep_swap_exchange (swapFun_invol (some d) (some a)) X0 Y0)

/-- C7 witness: in the concrete Sn2 TS graph the flip flag of site 2 is the
same (true) whether computed on the graph or on its reversal. -/
theorem C7_witness :
    ∃ m1 m2, sn2_local_stereo_reversal_flips libC7 gC7 = some m1 ∧
      sn2_local_stereo_reversal_flips libC7 (ts_reverse gC7) = some m2 ∧
      dlookup 2 m2 = dlookup 2 m1 :=
  ⟨[(2, true)], [(2, true)], by decide, by decide,
    C7_sn2_flip_flags_direction_independent libC7 gC7 2 1 3
      [(2, (1, 3))] [(2, (3, 1))] [(2, true)] [(2, true)]
      (by decide) (by decide) (by decide) (by decide) (by decide)
      (by decide) (by decide) (by decide) (by decide)⟩
